import Mathlib

/-!
# go-grass: the strand simulation of `main.go`

A shallow embedding of the per-frame simulation of `main.go` (`Strand.Update`,
`LerpColor`, `NewStrand`, the startup sort and the three update strategies of the
main loop), followed by the properties proved about it.

Conventions of the embedding

* `float64` is `F64`: a finite value is the rational number it denotes, every
  arithmetic operation computes the exact rational result and rounds it to the
  nearest binary64 value (ties to even), overflowing to an infinity.  The sign of
  a zero is not represented: no operation of the program observes it (the only
  division, `float64(i)/float64(len(s.colors))`, has a positive divisor).
* `int32` is `Int` with `wrapInt32` applied after every operation; `uint8` is
  `Fin 256`, whose `+` and `-` are the wrapping ones of Go.
* What Go leaves to the implementation or to a library is a field of `GoRuntime`:
  the result of converting an out-of-range float to an integer type and the
  general case of `math.Pow`.
* A run-time panic (index out of range, integer division by zero) is `none`.
-/

namespace GoGrass

/-! ## float64 -/

/-- A `float64` value: a finite number, an infinity or NaN. -/
inductive F64 where
  | fin (q : ℚ)
  | inf (neg : Bool)
  | nan
deriving DecidableEq

/-- Nearest integer, ties to the even one. -/
def roundHalfEven (x : ℚ) : Int :=
  let f := ⌊x⌋
  let r := x - f
  if r < 1 / 2 then f else if 1 / 2 < r then f + 1 else if f % 2 = 0 then f else f + 1

/-- The unit in the last place of the binade of `q`: 52 fraction bits below the
exponent of `q`, the exponent being at least -1022 (subnormal range). -/
def ulp64 (q : ℚ) : ℚ := (2 : ℚ) ^ (max (Int.log 2 |q|) (-1022) - 52)

/-- IEEE-754 rounding of an exact result to binary64, round-to-nearest-even;
a result of magnitude 2^1024 or more overflows to an infinity. -/
def F64.round64 (q : ℚ) : F64 :=
  let r : ℚ := (roundHalfEven (q / ulp64 q) : ℚ) * ulp64 q
  if (2 : ℚ) ^ (1024 : ℕ) ≤ |r| then .inf (decide (q < 0)) else .fin r

/-- The value is a finite number. -/
def F64.isFinite : F64 → Bool
  | .fin _ => true
  | _ => false

/-- The number denoted by a finite value (0 for the others). -/
def F64.toRat : F64 → ℚ
  | .fin q => q
  | _ => 0

/-- Unary minus. -/
def F64.neg : F64 → F64
  | .fin q => .fin (-q)
  | .inf n => .inf (!n)
  | .nan => .nan

/-- Go `x * y` on float64. -/
def F64.mul : F64 → F64 → F64
  | .fin a, .fin b => F64.round64 (a * b)
  | .fin a, .inf n => if a = 0 then .nan else .inf (xor (decide (a < 0)) n)
  | .inf n, .fin b => if b = 0 then .nan else .inf (xor n (decide (b < 0)))
  | .inf n, .inf m => .inf (xor n m)
  | .nan, _ => .nan
  | _, .nan => .nan

/-- Go `x + y` on float64. -/
def F64.add : F64 → F64 → F64
  | .fin a, .fin b => F64.round64 (a + b)
  | .fin _, .inf n => .inf n
  | .inf n, .fin _ => .inf n
  | .inf n, .inf m => if n = m then .inf n else .nan
  | .nan, _ => .nan
  | _, .nan => .nan

/-- Go `x - y` on float64. -/
def F64.sub (x y : F64) : F64 := F64.add x (F64.neg y)

/-- Go `x / y` on float64 (a zero divisor is +0). -/
def F64.div : F64 → F64 → F64
  | .fin a, .fin b =>
    if b = 0 then (if a = 0 then .nan else .inf (decide (a < 0))) else F64.round64 (a / b)
  | .fin _, .inf _ => .fin 0
  | .inf n, .fin b => .inf (xor n (decide (b < 0)))
  | .inf _, .inf _ => .nan
  | .nan, _ => .nan
  | _, .nan => .nan

/-- Go `float64(n)` for an integer `n`. -/
def F64.ofInt (z : Int) : F64 := F64.round64 (z : ℚ)

/-- Nearest integer, halves away from zero. -/
def roundAway (q : ℚ) : Int := if 0 ≤ q then ⌊q + 1 / 2⌋ else -⌊-q + 1 / 2⌋

/-- Go `math.Round`: nearest integer, rounding half away from zero; infinities and
NaN are returned unchanged. -/
def F64.mathRound : F64 → F64
  | .fin q => .fin (roundAway q)
  | x => x

/-- Truncation toward zero. -/
def truncRat (q : ℚ) : Int := if 0 ≤ q then ⌊q⌋ else ⌈q⌉

/-- What the Go specification leaves open and the program relies on. -/
structure GoRuntime where
  /-- The result of `math.Pow` outside the special cases listed in its documentation. -/
  powCore : F64 → F64 → F64
  /-- The result of `int32(f)` when the truncated `f` is not an int32 (implementation-dependent). -/
  cvtInt32 : F64 → Int
  /-- The result of `uint8(f)` when the truncated `f` is not a uint8 (implementation-dependent). -/
  cvtUint8 : F64 → Fin 256

/-- Go `math.Pow`, with the documented special cases that a non-negative base can
reach: `Pow(x, 0) = 1`, `Pow(1, y) = 1`, `Pow(x, 1) = x`, NaN arguments, and
`Pow(0, y) = 0` for `y > 0`; everything else is `powCore`. -/
def mathPow (rt : GoRuntime) (x y : F64) : F64 :=
  if y = .fin 0 ∨ x = .fin 1 then .fin 1
  else if y = .fin 1 then x
  else if x = .nan ∨ y = .nan then .nan
  else if x = .fin 0 ∧ (y = .inf false ∨ 0 < y.toRat) then .fin 0
  else rt.powCore x y

/-! ## int32 and uint8 -/

/-- Reduction of an integer to the int32 range (two's complement wrap-around). -/
def wrapInt32 (z : Int) : Int := (z + 2147483648) % 4294967296 - 2147483648

/-- The integer is an int32. -/
def isInt32 (z : Int) : Prop := -2147483648 ≤ z ∧ z < 2147483648

instance (z : Int) : Decidable (isInt32 z) := by
  unfold isInt32
  exact inferInstance

/-- Go `int32(f)`: the fraction is discarded; outside the int32 range the result
is implementation-dependent. -/
def toInt32 (rt : GoRuntime) (x : F64) : Int :=
  match x with
  | .fin q => if isInt32 (truncRat q) then truncRat q else wrapInt32 (rt.cvtInt32 x)
  | _ => wrapInt32 (rt.cvtInt32 x)

/-- Go `uint8(f)`: the fraction is discarded; outside 0..255 the result is
implementation-dependent. -/
def toUint8 (rt : GoRuntime) (x : F64) : Fin 256 :=
  match x with
  | .fin q =>
    if h : 0 ≤ truncRat q ∧ truncRat q < 256 then ⟨(truncRat q).toNat, by omega⟩
    else rt.cvtUint8 x
  | _ => rt.cvtUint8 x

/-! ## Constants of `main.go` -/

/-- Source constant `PIXEL_SIZE`. -/
def PIXEL_SIZE : Int := 5

/-- Source constant `WIND_SCALE`. -/
def WIND_SCALE : F64 := .fin 30

/-- Source constant `WIND_POWER`. -/
def WIND_POWER : F64 := .fin (1 / 2)

/-- Source constant `STRAND_MIN_LENGTH`. -/
def STRAND_MIN_LENGTH : Int := 4

/-- Source constant `STRAND_MAX_LENGTH`. -/
def STRAND_MAX_LENGTH : Int := 10

/-- An `rl.Color`: four uint8 channels. -/
structure Color where
  R : Fin 256
  G : Fin 256
  B : Fin 256
  A : Fin 256
deriving DecidableEq

/-- Source variable `STRAND_COLOR`. -/
def STRAND_COLOR : Color := ⟨0, 255, 0, 255⟩

/-- The zero colour `rl.Color{0, 0, 0, 0}`. -/
def Color.zero : Color := ⟨0, 0, 0, 0⟩

/-! ## `LerpColor` -/

/-- One channel of `LerpColor`: `start + uint8(float64(end-start)*amount)`, the
subtraction and the addition being those of uint8. -/
def lerpChannel (rt : GoRuntime) (s e : Fin 256) (amount : F64) : Fin 256 :=
  s + toUint8 rt (F64.mul (F64.ofInt (((e - s : Fin 256).val : Nat) : Int)) amount)

/-- Source function `LerpColor`. -/
def LerpColor (rt : GoRuntime) (start stop : Color) (amount : F64) : Color :=
  { R := lerpChannel rt start.R stop.R amount
    G := lerpChannel rt start.G stop.G amount
    B := lerpChannel rt start.B stop.B amount
    A := lerpChannel rt start.A stop.A amount }

/-! ## `Strand` -/

/-- Source type `Strand`; `positions` holds `x, y` pairs, one per colour. -/
structure Strand where
  X : Int
  Y : Int
  colors : List Color
  positions : List Int
deriving DecidableEq

/-- The colour `Update` blends toward: `LerpColor(zero, STRAND_COLOR, wind + (1-wind)*WIND_POWER)`. -/
def topStrandColor (rt : GoRuntime) (wind : F64) : Color :=
  LerpColor rt Color.zero STRAND_COLOR
    (F64.add wind (F64.mul (F64.sub (.fin 1) wind) WIND_POWER))

/-- The float offset of segment `i`:
`math.Round(tilt * wind * 0.5 * math.Pow(float64(i), 1.5))`. -/
def segmentOffset (rt : GoRuntime) (tilt wind : F64) (i : Nat) : F64 :=
  F64.mathRound
    (F64.mul (F64.mul (F64.mul tilt wind) (.fin (1 / 2)))
      (mathPow rt (F64.ofInt (i : Int)) (.fin (3 / 2))))

/-- The colour written to segment `i` of a strand of `n` segments:
`LerpColor(zero, topStrandColor, float64(i)/float64(n))`. -/
def segmentColor (rt : GoRuntime) (top : Color) (n i : Nat) : Color :=
  LerpColor rt Color.zero top (F64.div (F64.ofInt (i : Int)) (F64.ofInt (n : Int)))

/-- The loop of `Strand.Update` from index `i`.  The first argument bounds the
number of iterations left (the loop runs `len(s.colors) - i` more times, the
length being unchanged by the body); an index outside `positions` panics. -/
def Strand.updateLoop (rt : GoRuntime) (tilt wind : F64) (top : Color) :
    Nat → Nat → Strand → Option Strand
  | 0, _, s => some s
  | k + 1, i, s =>
    if i < s.colors.length then
      if 2 * i < s.positions.length then
        let p1 := s.positions.set (2 * i) (wrapInt32 (s.X + toInt32 rt (segmentOffset rt tilt wind i)))
        if 2 * i + 1 < p1.length then
          let p2 := p1.set (2 * i + 1) (wrapInt32 (s.Y - wrapInt32 (i : Int)))
          let c := s.colors.set i (segmentColor rt top s.colors.length i)
          Strand.updateLoop rt tilt wind top k (i + 1) { s with colors := c, positions := p2 }
        else none
      else none
    else some s

/-- Source method `Strand.Update`. -/
def Strand.Update (rt : GoRuntime) (tilt wind : F64) (s : Strand) : Option Strand :=
  Strand.updateLoop rt tilt wind (topStrandColor rt wind) s.colors.length 0 s

/-- Go `a % b` on int32 for `b ≠ 0`, then `/ PIXEL_SIZE`; both truncate. A zero
divisor panics. -/
def randCoord (r screen : Int) : Option Int :=
  if wrapInt32 screen = 0 then none
  else some (Int.tdiv (Int.tmod r (wrapInt32 screen)) PIXEL_SIZE)

/-- Source function `NewStrand`; `r1 r2 r3` are the three results of
`rand.Int31()` in evaluation order, `width height` those of
`rl.GetScreenWidth()` and `rl.GetScreenHeight()`. -/
def NewStrand (width height r1 r2 r3 : Int) : Option Strand := do
  let length := wrapInt32 (STRAND_MIN_LENGTH + Int.tmod r1 (STRAND_MAX_LENGTH - STRAND_MIN_LENGTH))
  let x ← randCoord r2 width
  let y ← randCoord r3 height
  if length < 0 then none
  else
    some { X := x
           Y := y
           colors := List.replicate length.toNat Color.zero
           positions := List.replicate (wrapInt32 (length * 2)).toNat 0 }


/-- The strand invariant of `NewStrand`: two position entries per colour. -/
def Strand.wf (s : Strand) : Prop := s.positions.length = 2 * s.colors.length

instance (s : Strand) : Decidable s.wf := by
  unfold Strand.wf
  exact inferInstance

/-- The horizontal coordinate `Update` writes for segment `i`. -/
def Strand.xAt (rt : GoRuntime) (tilt wind : F64) (s : Strand) (i : Nat) : Int :=
  wrapInt32 (s.X + toInt32 rt (segmentOffset rt tilt wind i))

/-- The vertical coordinate `Update` writes for segment `i`. -/
def Strand.yAt (s : Strand) (i : Nat) : Int := wrapInt32 (s.Y - wrapInt32 (i : Int))

/-- Closed form of the strand left by `Update` on a strand satisfying `wf`
(see `Update_eq_updated`): every colour and every position entry is rewritten. -/
def Strand.updated (rt : GoRuntime) (tilt wind : F64) (s : Strand) : Strand :=
  { X := s.X
    Y := s.Y
    colors := (List.range s.colors.length).map
      (segmentColor rt (topStrandColor rt wind) s.colors.length)
    positions := (List.range (2 * s.colors.length)).map
      (fun p => if p % 2 = 0 then s.xAt rt tilt wind (p / 2) else s.yAt (p / 2)) }

/-! ## The main loop: startup sort and the three update strategies -/

/-- The startup sort `sort.SliceStable(strands, less)` with
`less(i, j) = strands[i].Y < strands[j].Y`: a stable sort by ascending `Y`
(an element is placed before the first later element that is not below it). -/
def sortByY (strands : List Strand) : List Strand :=
  List.insertionSort (fun a b => a.Y ≤ b.Y) strands

/-- The two components of `windPosition` the update reads (float32 values,
widened to float64 without loss). -/
structure WindPosition where
  X : F64
  Y : F64

/-- The argument `wind` every strategy passes to `Update`:
`simplex.Eval2(float64(strand.X)/WIND_SCALE + float64(windPosition.X),
float64(strand.Y)/WIND_SCALE + float64(windPosition.Y))`. -/
def noiseValue (noise : F64 → F64 → F64) (wp : WindPosition) (s : Strand) : F64 :=
  noise (F64.add (F64.div (F64.ofInt s.X) WIND_SCALE) wp.X)
    (F64.add (F64.div (F64.ofInt s.Y) WIND_SCALE) wp.Y)

/-- The work done on one strand in every strategy: `strand.Update(0.5, noiseValue)`. -/
def updateStrand (rt : GoRuntime) (noise : F64 → F64 → F64) (wp : WindPosition)
    (s : Strand) : Option Strand :=
  s.Update rt (.fin (1 / 2)) (noiseValue noise wp s)

/-- The strand `updateStrand` leaves when it does not panic. -/
def strandAfter (rt : GoRuntime) (noise : F64 → F64 → F64) (wp : WindPosition)
    (s : Strand) : Strand :=
  s.updated rt (.fin (1 / 2)) (noiseValue noise wp s)

/-- In-place update of `strands[j]`. -/
def updateAt (rt : GoRuntime) (noise : F64 → F64 → F64) (wp : WindPosition)
    (strands : List Strand) (j : Nat) : Option (List Strand) :=
  match strands[j]? with
  | none => none
  | some s => (updateStrand rt noise wp s).map (fun t => strands.set j t)

/-- Strategy `"single_thread"`: the strands are updated one after the other. -/
def singleThread (rt : GoRuntime) (noise : F64 → F64 → F64) (wp : WindPosition)
    (strands : List Strand) : Option (List Strand) :=
  strands.mapM (updateStrand rt noise wp)

/-- The loop `for j := i; j < len(strands); j += numCpu` of worker `i`: the
indices it visits, in order.  The first argument bounds the iterations left
(at most `N` for `numCpu ≥ 1`). -/
def workerLoop (numCpu N : Nat) : Nat → Nat → List Nat
  | 0, _ => []
  | fuel + 1, j => if j < N then j :: workerLoop numCpu N fuel (j + numCpu) else []

/-- The indices worker `k` of `"multithread_classic"` updates, in order. -/
def workerIndices (numCpu N k : Nat) : List Nat := workerLoop numCpu N N k

/-- The goroutines of a concurrent strategy between their start and
`waitGroup.Wait()`: the population and, per goroutine, the indices it has
still to update. -/
structure Pool where
  strands : List Strand
  pending : List (List Nat)

/-- One goroutine per strand (`"multithread_strands"`): goroutine `j` updates
strand `j`. -/
def strandTasks (N : Nat) : List (List Nat) := (List.range N).map (fun j => [j])

/-- The `numCpu` workers of `"multithread_classic"`. -/
def classicTasks (numCpu N : Nat) : List (List Nat) :=
  (List.range numCpu).map (workerIndices numCpu N)

/-- Goroutine `k` is scheduled and performs its next `Update`; a goroutine
that has finished (or does not exist) does nothing. -/
def poolStep (rt : GoRuntime) (noise : F64 → F64 → F64) (wp : WindPosition)
    (st : Pool) (k : Nat) : Option Pool :=
  match st.pending[k]? with
  | some (j :: rest) =>
    (updateAt rt noise wp st.strands j).map (fun l => { strands := l, pending := st.pending.set k rest })
  | _ => some st

/-- The goroutines run in the order given by the schedule (a list of goroutine
numbers, one entry per `Update` performed). -/
def poolRun (rt : GoRuntime) (noise : F64 → F64 → F64) (wp : WindPosition)
    (sched : List Nat) (st : Pool) : Option Pool :=
  sched.foldlM (poolStep rt noise wp) st

/-- Every goroutine has finished: `waitGroup.Wait()` returns. -/
def poolDone (st : Pool) : Bool := st.pending.all List.isEmpty

/-- The three values of `mode`. -/
inductive Mode where
  | multithread_strands
  | multithread_classic
  | single_thread
deriving DecidableEq

/-- The goroutines a mode spawns for a population of `N` strands. -/
def modeTasks (numCpu N : Nat) : Mode → List (List Nat)
  | .multithread_strands => strandTasks N
  | .multithread_classic => classicTasks numCpu N
  | .single_thread => []

/-- The population `b` is one the update phase of a frame can leave from `a`:
the result of the sequential loop, or of a run of the spawned goroutines, in
some order, up to the point where all have finished. -/
def FrameResult (rt : GoRuntime) (noise : F64 → F64 → F64) (numCpu : Nat)
    (wp : WindPosition) (mode : Mode) (a b : List Strand) : Prop :=
  match mode with
  | .single_thread => singleThread rt noise wp a = some b
  | m => ∃ sched st, poolRun rt noise wp sched ⟨a, modeTasks numCpu a.length m⟩ = some st ∧
      poolDone st = true ∧ st.strands = b

/-- The population after any number of frames, each with its own mode and wind
position. -/
inductive Frames (rt : GoRuntime) (noise : F64 → F64 → F64) (numCpu : Nat) :
    List Strand → List Strand → Prop where
  | done (a : List Strand) : Frames rt noise numCpu a a
  | frame (wp : WindPosition) (mode : Mode) (a b c : List Strand) :
      FrameResult rt noise numCpu wp mode a b → Frames rt noise numCpu b c →
      Frames rt noise numCpu a c

/-- Invariant of a run of the goroutines over the population `orig`: no index
is pending twice, and a strand is still the original one while its index is
pending and the updated one afterwards. -/
def PoolInv (rt : GoRuntime) (noise : F64 → F64 → F64) (wp : WindPosition)
    (orig : List Strand) (st : Pool) : Prop :=
  st.strands.length = orig.length ∧ st.pending.flatten.Nodup ∧
  (∀ j, j ∈ st.pending.flatten → j < orig.length) ∧
  ∀ j, st.strands[j]? =
    if j ∈ st.pending.flatten then orig[j]? else (orig[j]?).map (strandAfter rt noise wp)

/-! ## Sample inputs -/

/-- A sample runtime: out-of-range conversions give the smallest int32 and 0,
and `powCore x y` is `x * ⌊√x⌋` (which is `x^1.5` on perfect squares). -/
def sampleRuntime : GoRuntime :=
  { powCore := fun x _ => F64.mul x (.fin ((Nat.sqrt ⌊x.toRat⌋₊ : Nat) : ℚ))
    cvtInt32 := fun _ => -2147483648
    cvtUint8 := fun _ => 0 }

/-- A sample noise function (constant 1). -/
def sampleNoise : F64 → F64 → F64 := fun _ _ => .fin 1

/-- A strand with root `(x, y)` and `n` segments, as `NewStrand` allocates it. -/
def freshStrand (x y : Int) (n : Nat) : Strand :=
  { X := x, Y := y, colors := List.replicate n Color.zero, positions := List.replicate (2 * n) 0 }

/-- A population of three strands with `Y` values 50, 10, 30. -/
def samplePopulation : List Strand :=
  [freshStrand 1 50 4, freshStrand 2 10 5, freshStrand 3 30 4]

/-! ## Rounding lemmas -/

theorem roundHalfEven_intCast (z : Int) : roundHalfEven (z : ℚ) = z := by
  simp [roundHalfEven]

theorem abs_roundHalfEven_sub_le (x : ℚ) : |(roundHalfEven x : ℚ) - x| ≤ 1 / 2 := by
  have h1 := Int.floor_le x
  have h2 := Int.lt_floor_add_one x
  unfold roundHalfEven
  simp only []
  split_ifs with ha hb hc
  · rw [abs_le]; constructor <;> linarith
  · rw [abs_le]; push_cast; constructor <;> linarith
  · rw [abs_le]; constructor <;> linarith
  · rw [abs_le]; push_cast; constructor <;> linarith

theorem ulp64_pos (q : ℚ) : 0 < ulp64 q := by
  unfold ulp64
  positivity

theorem ulp64_le_of_abs_lt (q : ℚ) (k : Int) (hk : 0 ≤ k) (h : |q| < (2 : ℚ) ^ (k + 1)) :
    ulp64 q ≤ (2 : ℚ) ^ (k - 52) := by
  unfold ulp64
  apply zpow_le_zpow_right₀ (by norm_num)
  have hlog : Int.log 2 |q| ≤ k := by
    rcases (abs_nonneg q).eq_or_lt with h0 | h0
    · rw [← h0, Int.log_of_right_le_zero 2 (le_refl (0 : ℚ))]
      omega
    · have := (Int.lt_zpow_iff_log_lt (R := ℚ) (b := 2) (by norm_num) h0).1 (by exact_mod_cast h)
      omega
  have : max (Int.log 2 |q|) (-1022) ≤ k := max_le hlog (by omega)
  omega

/-- An exact result within 512 in magnitude rounds to a finite value at most
`2^-44` away. -/
theorem round64_near (q : ℚ) (h : |q| ≤ 512) :
    ∃ r : ℚ, F64.round64 q = .fin r ∧ |r - q| ≤ 1 / 2 ^ 44 := by
  have hu : ulp64 q ≤ (2 : ℚ) ^ ((9 : Int) - 52) :=
    ulp64_le_of_abs_lt q 9 (by norm_num) (by norm_num; linarith)
  have hu' : ulp64 q ≤ 1 / 2 ^ 43 := by
    have e : (2 : ℚ) ^ ((9 : Int) - 52) = 1 / 2 ^ 43 := by
      rw [show ((9 : Int) - 52) = -((43 : ℕ) : Int) by norm_num, zpow_neg, zpow_natCast]
      simp
    exact hu.trans_eq e
  have hpos := ulp64_pos q
  have herr := abs_roundHalfEven_sub_le (q / ulp64 q)
  have hr : |(roundHalfEven (q / ulp64 q) : ℚ) * ulp64 q - q| ≤ ulp64 q / 2 := by
    have : (roundHalfEven (q / ulp64 q) : ℚ) * ulp64 q - q
        = ((roundHalfEven (q / ulp64 q) : ℚ) - q / ulp64 q) * ulp64 q := by
      field_simp
    rw [this, abs_mul, abs_of_pos hpos]
    nlinarith
  refine ⟨(roundHalfEven (q / ulp64 q) : ℚ) * ulp64 q, ?_, ?_⟩
  · unfold F64.round64
    simp only []
    rw [if_neg]
    rw [not_le]
    have h3 : |(roundHalfEven (q / ulp64 q) : ℚ) * ulp64 q| ≤ |q| + ulp64 q / 2 := by
      have := abs_sub_abs_le_abs_sub ((roundHalfEven (q / ulp64 q) : ℚ) * ulp64 q) q
      linarith
    have h4 : (1024 : ℚ) ≤ 2 ^ (1024 : ℕ) := by
      calc (1024 : ℚ) = 2 ^ (10 : ℕ) := by norm_num
        _ ≤ 2 ^ (1024 : ℕ) := pow_le_pow_right₀ (by norm_num) (by norm_num)
    have h5 : (1 : ℚ) / 2 ^ 43 ≤ 1 := by
      rw [div_le_one (by positivity)]
      exact one_le_pow₀ (by norm_num)
    linarith
  · have e : (1 : ℚ) / 2 ^ 44 = (1 / 2 ^ 43) / 2 := by
      rw [pow_succ]; field_simp
    linarith

/-- A dyadic number with a 53-bit significand and an exponent in range is a
binary64 value: rounding leaves it unchanged. -/
theorem round64_dyadic (m k : Int) (hm : |m| < 2 ^ 53) (hk : -1074 ≤ k)
    (hq : |(m : ℚ) * (2 : ℚ) ^ k| < (2 : ℚ) ^ (1024 : ℕ)) :
    F64.round64 ((m : ℚ) * (2 : ℚ) ^ k) = .fin ((m : ℚ) * (2 : ℚ) ^ k) := by
  have h2 : (2 : ℚ) ≠ 0 := by norm_num
  rcases eq_or_ne m 0 with hm0 | hm0
  · subst hm0
    simp [F64.round64, roundHalfEven]
  have hmq : |(m : ℚ)| < 2 ^ 53 := by exact_mod_cast hm
  generalize hqdef : (m : ℚ) * (2 : ℚ) ^ k = q at hq ⊢
  have h0 : 0 < |q| := by
    rw [← hqdef]
    apply abs_pos.2
    exact mul_ne_zero (by exact_mod_cast hm0) (zpow_ne_zero k h2)
  -- the exponent of the ulp is at most k
  have hlog : Int.log 2 |q| - 52 ≤ k := by
    have hle := Int.zpow_log_le_self (R := ℚ) (b := 2) (by norm_num) h0
    have hlt : |q| < (2 : ℚ) ^ (53 + k) := by
      rw [← hqdef, abs_mul, abs_of_pos (zpow_pos (by norm_num : (0 : ℚ) < 2) k), zpow_add₀ h2]
      apply mul_lt_mul_of_pos_right _ (zpow_pos (by norm_num) k)
      rw [show ((53 : Int)) = ((53 : ℕ) : Int) by norm_num, zpow_natCast]
      exact hmq
    have h3 : (2 : ℚ) ^ Int.log 2 |q| < (2 : ℚ) ^ (53 + k) := by
      refine lt_of_le_of_lt ?_ hlt
      simpa using hle
    have := (zpow_lt_zpow_iff_right₀ (by norm_num : (1 : ℚ) < 2)).1 h3
    omega
  have hexp : max (Int.log 2 |q|) (-1022) - 52 ≤ k := by
    rcases le_total (Int.log 2 |q|) (-1022) with h | h
    · rw [max_eq_right h]; omega
    · rw [max_eq_left h]; exact hlog
  have hu : ulp64 q = (2 : ℚ) ^ (max (Int.log 2 |q|) (-1022) - 52) := rfl
  generalize max (Int.log 2 |q|) (-1022) - 52 = E at hexp hu
  obtain ⟨d, hd⟩ : ∃ d : ℕ, k = E + d := ⟨(k - E).toNat, by omega⟩
  have hne : (2 : ℚ) ^ E ≠ 0 := zpow_ne_zero E h2
  have hdiv : q / ulp64 q = ((m * 2 ^ d : Int) : ℚ) := by
    rw [hu, ← hqdef, hd, zpow_add₀ h2, zpow_natCast]
    push_cast
    field_simp
    ring
  have hr : ((m * 2 ^ d : Int) : ℚ) * ulp64 q = q := by
    rw [← hdiv, div_mul_cancel₀ _ (ulp64_pos q).ne']
  unfold F64.round64
  simp only []
  rw [hdiv, roundHalfEven_intCast, hr, if_neg (not_le.2 hq)]

theorem ofInt_small (z : Int) (hz : |z| < 2 ^ 53) : F64.ofInt z = .fin (z : ℚ) := by
  have hzq : |(z : ℚ)| < 2 ^ 53 := by exact_mod_cast hz
  have := round64_dyadic z 0 hz (by norm_num) (by
    simp only [zpow_zero, mul_one]
    have h2 : (2 : ℚ) ^ 53 ≤ (2 : ℚ) ^ (1024 : ℕ) := by norm_num
    linarith)
  simpa [F64.ofInt] using this

theorem round64_half (m : Int) (hm : |m| < 2 ^ 53) :
    F64.round64 ((m : ℚ) / 2) = .fin ((m : ℚ) / 2) := by
  have hmq : |(m : ℚ)| < 2 ^ 53 := by exact_mod_cast hm
  have e : (m : ℚ) * (2 : ℚ) ^ (-1 : Int) = (m : ℚ) / 2 := by
    rw [zpow_neg_one]; ring
  have := round64_dyadic m (-1) hm (by norm_num) (by
    rw [e, abs_div, abs_of_pos (by norm_num : (0 : ℚ) < 2)]
    have h2 : (2 : ℚ) ^ 53 ≤ (2 : ℚ) ^ (1024 : ℕ) := by norm_num
    have h4 := abs_nonneg (m : ℚ)
    linarith)
  rwa [e] at this


/-! ## The loop of `Strand.Update` -/

/-- What the loop of `Update` does from index `i` when `k` iterations remain:
it does not panic, keeps `X`, `Y` and both lengths, writes the entries of the
segments `i ..` and leaves every other entry alone. -/
theorem updateLoop_spec (rt : GoRuntime) (tilt wind : F64) (top : Color) (X Y : Int) (n : Nat) :
    ∀ (k i : Nat) (s : Strand), i + k = n → s.colors.length = n → s.X = X → s.Y = Y →
      2 * n ≤ s.positions.length →
      ∃ t, Strand.updateLoop rt tilt wind top k i s = some t ∧ t.X = X ∧ t.Y = Y ∧
        t.colors.length = n ∧ t.positions.length = s.positions.length ∧
        (∀ j, i ≤ j → j < n →
          t.colors[j]? = some (segmentColor rt top n j) ∧
          t.positions[2 * j]? = some (wrapInt32 (X + toInt32 rt (segmentOffset rt tilt wind j))) ∧
          t.positions[2 * j + 1]? = some (wrapInt32 (Y - wrapInt32 (j : Int)))) ∧
        (∀ j, j < i → t.colors[j]? = s.colors[j]?) ∧
        (∀ p, (p < 2 * i ∨ 2 * n ≤ p) → t.positions[p]? = s.positions[p]?) := by
  intro k
  induction k with
  | zero =>
    intro i s hik hc hX hY hp
    refine ⟨s, rfl, hX, hY, hc, rfl, ?_, fun _ _ => rfl, fun _ _ => rfl⟩
    intro j h1 h2
    omega
  | succ k ih =>
    intro i s hik hc hX hY hp
    have hi : i < s.colors.length := by omega
    have hp0 : 2 * i < s.positions.length := by omega
    have hp1 : 2 * i + 1 < (s.positions.set (2 * i)
        (wrapInt32 (s.X + toInt32 rt (segmentOffset rt tilt wind i)))).length := by
      rw [List.length_set]; omega
    simp only [Strand.updateLoop, if_pos hi, if_pos hp0, if_pos hp1]
    obtain ⟨t, ht, htX, htY, htc, htp, hnew, holdc, holdp⟩ :=
      ih (i + 1)
        { s with
          colors := s.colors.set i (segmentColor rt top s.colors.length i)
          positions := (s.positions.set (2 * i)
            (wrapInt32 (s.X + toInt32 rt (segmentOffset rt tilt wind i)))).set (2 * i + 1)
            (wrapInt32 (s.Y - wrapInt32 (i : Int))) }
        (by omega) (by simp [hc]) hX hY (by simp [List.length_set]; omega)
    simp only [List.length_set] at htp
    refine ⟨t, ht, htX, htY, htc, htp, ?_, ?_, ?_⟩
    · intro j h1 h2
      rcases Nat.eq_or_lt_of_le h1 with h | h
      · subst h
        refine ⟨?_, ?_, ?_⟩
        · rw [holdc i (by omega)]
          simp only []
          rw [List.getElem?_set_self hi, hc]
        · rw [holdp (2 * i) (by omega)]
          simp only []
          rw [List.getElem?_set_ne (by omega), List.getElem?_set_self hp0, hX]
        · rw [holdp (2 * i + 1) (by omega)]
          simp only []
          rw [List.getElem?_set_self hp1, hY]
      · exact hnew j (by omega) h2
    · intro j hj
      rw [holdc j (by omega)]
      simp only []
      rw [List.getElem?_set_ne (by omega)]
    · intro p hpp
      rw [holdp p (by omega)]
      simp only []
      rw [List.getElem?_set_ne (by omega), List.getElem?_set_ne (by omega)]

theorem Update_eq_updated (rt : GoRuntime) (tilt wind : F64) (s : Strand) (h : s.wf) :
    s.Update rt tilt wind = some (s.updated rt tilt wind) := by
  obtain ⟨t, ht, htX, htY, htc, htp, hnew, -, -⟩ :=
    updateLoop_spec rt tilt wind (topStrandColor rt wind) s.X s.Y s.colors.length
      s.colors.length 0 s (by omega) rfl rfl rfl (by rw [h])
  unfold Strand.Update
  rw [ht]
  congr 1
  have hc : t.colors = (s.updated rt tilt wind).colors := by
    apply List.ext_getElem?
    intro j
    by_cases hj : j < s.colors.length
    · rw [(hnew j (Nat.zero_le _) hj).1]
      simp [Strand.updated, List.getElem?_map, List.getElem?_range hj]
    · rw [List.getElem?_eq_none (by omega), List.getElem?_eq_none (by simp [Strand.updated]; omega)]
  have hp : t.positions = (s.updated rt tilt wind).positions := by
    apply List.ext_getElem?
    intro p
    by_cases hj : p < 2 * s.colors.length
    · have hj2 : p / 2 < s.colors.length := by omega
      rcases Nat.mod_two_eq_zero_or_one p with h0 | h1
      · have e : p = 2 * (p / 2) := by omega
        have := (hnew (p / 2) (Nat.zero_le _) hj2).2.1
        rw [← e] at this
        rw [this]
        simp [Strand.updated, List.getElem?_map, List.getElem?_range hj, h0, Strand.xAt]
      · have e : p = 2 * (p / 2) + 1 := by omega
        have := (hnew (p / 2) (Nat.zero_le _) hj2).2.2
        rw [← e] at this
        rw [this]
        simp [Strand.updated, List.getElem?_map, List.getElem?_range hj, h1, Strand.yAt]
    · rw [List.getElem?_eq_none (by rw [htp, h]; omega),
        List.getElem?_eq_none (by simp [Strand.updated]; omega)]
  cases t
  simp only [Strand.updated] at hc hp ⊢
  simp_all


/-! ## The strided partition of the worker pool -/

theorem workerLoop_getElem? (numCpu N : Nat) : ∀ (fuel j t : Nat),
    (workerLoop numCpu N fuel j)[t]? =
      if t < fuel ∧ j + t * numCpu < N then some (j + t * numCpu) else none := by
  intro fuel
  induction fuel with
  | zero => intro j t; simp [workerLoop]
  | succ fuel ih =>
    intro j t
    unfold workerLoop
    by_cases hj : j < N
    · rw [if_pos hj]
      cases t with
      | zero => simp [hj]
      | succ t =>
        rw [List.getElem?_cons_succ, ih]
        have e : j + numCpu + t * numCpu = j + (t + 1) * numCpu := by
          rw [Nat.succ_mul]; omega
        rw [e]
        by_cases h : t < fuel ∧ j + (t + 1) * numCpu < N
        · rw [if_pos h, if_pos ⟨by omega, h.2⟩]
        · rw [if_neg h, if_neg (fun h2 => h ⟨by omega, h2.2⟩)]
    · rw [if_neg hj, if_neg (fun h => hj (by omega))]
      simp

theorem workerIndices_getElem? (numCpu N : Nat) (hcpu : 1 ≤ numCpu) (k t : Nat) :
    (workerIndices numCpu N k)[t]? =
      if k + t * numCpu < N then some (k + t * numCpu) else none := by
  unfold workerIndices
  rw [workerLoop_getElem?]
  by_cases h : k + t * numCpu < N
  · have : t ≤ t * numCpu := Nat.le_mul_of_pos_right t hcpu
    rw [if_pos ⟨by omega, h⟩, if_pos h]
  · rw [if_neg (fun h2 => h h2.2), if_neg h]

theorem mem_workerIndices (numCpu N : Nat) (hcpu : 1 ≤ numCpu) (k : Nat) (hk : k < numCpu)
    (j : Nat) : j ∈ workerIndices numCpu N k ↔ j < N ∧ j % numCpu = k := by
  rw [List.mem_iff_getElem?]
  constructor
  · rintro ⟨t, ht⟩
    rw [workerIndices_getElem? numCpu N hcpu] at ht
    split_ifs at ht with h
    simp only [Option.some.injEq] at ht
    subst ht
    exact ⟨h, by rw [Nat.add_mul_mod_self_right, Nat.mod_eq_of_lt hk]⟩
  · rintro ⟨h1, h2⟩
    refine ⟨j / numCpu, ?_⟩
    have e : k + j / numCpu * numCpu = j := by
      rw [← h2, Nat.mul_comm]; exact Nat.mod_add_div j numCpu
    rw [workerIndices_getElem? numCpu N hcpu, e, if_pos h1]

theorem nodup_workerIndices (numCpu N : Nat) (hcpu : 1 ≤ numCpu) (k : Nat) :
    (workerIndices numCpu N k).Nodup := by
  have hs : List.Pairwise (· < ·) (workerIndices numCpu N k) := by
    rw [List.pairwise_iff_getElem]
    intro a b ha hb hab
    have h1 := List.getElem?_eq_getElem ha
    have h2 := List.getElem?_eq_getElem hb
    rw [workerIndices_getElem? numCpu N hcpu] at h1 h2
    split_ifs at h1 h2
    simp only [Option.some.injEq] at h1 h2
    rw [← h1, ← h2]
    have := Nat.mul_lt_mul_of_pos_right hab hcpu
    omega
  exact hs.imp (fun h => Nat.ne_of_lt h)

theorem classicTasks_perm (numCpu N : Nat) (hcpu : 1 ≤ numCpu) :
    (classicTasks numCpu N).flatten.Perm (List.range N) := by
  apply (List.perm_ext_iff_of_nodup _ (List.nodup_range N)).2
  · intro j
    rw [List.mem_flatten, List.mem_range]
    constructor
    · rintro ⟨l, hl, hj⟩
      simp only [classicTasks, List.mem_map, List.mem_range] at hl
      obtain ⟨k, hk, rfl⟩ := hl
      exact ((mem_workerIndices numCpu N hcpu k hk j).1 hj).1
    · intro hj
      refine ⟨workerIndices numCpu N (j % numCpu), ?_, ?_⟩
      · simp only [classicTasks, List.mem_map, List.mem_range]
        exact ⟨j % numCpu, Nat.mod_lt j hcpu, rfl⟩
      · exact (mem_workerIndices numCpu N hcpu _ (Nat.mod_lt j hcpu) j).2 ⟨hj, rfl⟩
  · rw [List.nodup_flatten]
    constructor
    · intro l hl
      simp only [classicTasks, List.mem_map, List.mem_range] at hl
      obtain ⟨k, _, rfl⟩ := hl
      exact nodup_workerIndices numCpu N hcpu k
    · unfold classicTasks
      rw [List.pairwise_map]
      have hr : List.Pairwise (fun a b => a < numCpu ∧ b < numCpu ∧ a ≠ b) (List.range numCpu) := by
        have h1 := List.pairwise_lt_range numCpu
        rw [List.pairwise_iff_getElem] at h1 ⊢
        intro a b ha hb hab
        have := h1 a b ha hb hab
        simp only [List.getElem_range] at this ⊢
        simp only [List.length_range] at ha hb
        omega
      refine hr.imp ?_
      rintro a b ⟨ha, hb, hab⟩ x hxa hxb
      have h1 := ((mem_workerIndices numCpu N hcpu a ha x).1 hxa).2
      have h2 := ((mem_workerIndices numCpu N hcpu b hb x).1 hxb).2
      omega

/-- Claim C2. Worker `k` of the pool visits `k, k + numCpu, k + 2*numCpu, ...` as long as the
index is below `N` (its `t`-th update is index `k + t*numCpu`); for `k < numCpu`
these are the indices below `N` congruent to `k`; the sets of two different
workers are disjoint, every index below `N` belongs to some worker, and over
all workers every index below `N` is visited exactly once. -/
theorem worker_pool_partition (numCpu N : Nat) (hcpu : 1 ≤ numCpu) :
    (∀ k t, (workerIndices numCpu N k)[t]? =
        if k + t * numCpu < N then some (k + t * numCpu) else none) ∧
    (∀ k, k < numCpu → ∀ j, j ∈ workerIndices numCpu N k ↔ j < N ∧ j % numCpu = k) ∧
    (∀ k1 k2, k1 < numCpu → k2 < numCpu → k1 ≠ k2 →
        List.Disjoint (workerIndices numCpu N k1) (workerIndices numCpu N k2)) ∧
    (∀ j, j < N → ∃ k, k < numCpu ∧ j ∈ workerIndices numCpu N k) ∧
    (classicTasks numCpu N).flatten.Perm (List.range N) ∧
    (∀ j, j < N → (classicTasks numCpu N).flatten.count j = 1) := by
  refine ⟨workerIndices_getElem? numCpu N hcpu, mem_workerIndices numCpu N hcpu, ?_, ?_,
    classicTasks_perm numCpu N hcpu, ?_⟩
  · intro k1 k2 h1 h2 hne x hx1 hx2
    have a := ((mem_workerIndices numCpu N hcpu k1 h1 x).1 hx1).2
    have b := ((mem_workerIndices numCpu N hcpu k2 h2 x).1 hx2).2
    omega
  · intro j hj
    exact ⟨j % numCpu, Nat.mod_lt j hcpu,
      (mem_workerIndices numCpu N hcpu _ (Nat.mod_lt j hcpu) j).2 ⟨hj, rfl⟩⟩
  · intro j hj
    rw [(classicTasks_perm numCpu N hcpu).count_eq]
    exact List.count_eq_one_of_mem (List.nodup_range N) (List.mem_range.2 hj)

theorem worker_pool_partition_witness :
    (1 ≤ 4) ∧ workerIndices 4 10 1 = [1, 5, 9] ∧
      (classicTasks 4 10).flatten.Perm (List.range 10) :=
  ⟨by decide, by decide, (worker_pool_partition 4 10 (by decide)).2.2.2.2.1⟩


/-! ## Runs of the goroutines -/

theorem updateStrand_of_wf (rt : GoRuntime) (noise : F64 → F64 → F64) (wp : WindPosition)
    (s : Strand) (h : s.wf) :
    updateStrand rt noise wp s = some (strandAfter rt noise wp s) :=
  Update_eq_updated rt _ _ s h

theorem mapM_eq_some_map {α β : Type} (f : α → Option β) (g : α → β) :
    ∀ l : List α, (∀ a, a ∈ l → f a = some (g a)) → l.mapM f = some (l.map g) := by
  intro l
  induction l with
  | nil => intro _; rfl
  | cons a l ih =>
    intro h
    rw [List.mapM_cons, h a (List.mem_cons_self a l), ih (fun b hb => h b (List.mem_cons_of_mem a hb))]
    rfl

theorem singleThread_of_wf (rt : GoRuntime) (noise : F64 → F64 → F64) (wp : WindPosition)
    (strands : List Strand) (h : ∀ s, s ∈ strands → s.wf) :
    singleThread rt noise wp strands = some (strands.map (strandAfter rt noise wp)) :=
  mapM_eq_some_map _ _ strands (fun s hs => updateStrand_of_wf rt noise wp s (h s hs))

theorem pending_perm : ∀ (pending : List (List Nat)) (k j : Nat) (rest : List Nat),
    pending[k]? = some (j :: rest) →
    pending.flatten.Perm (j :: (pending.set k rest).flatten) := by
  intro pending
  induction pending with
  | nil => intro k j rest h; simp at h
  | cons l ls ih =>
    intro k j rest h
    cases k with
    | zero =>
      simp only [List.getElem?_cons_zero, Option.some.injEq] at h
      subst h
      simp
    | succ k =>
      rw [List.getElem?_cons_succ] at h
      have := ih k j rest h
      rw [List.set_cons_succ, List.flatten_cons, List.flatten_cons]
      have h2 : (l ++ ls.flatten).Perm (l ++ j :: (ls.set k rest).flatten) :=
        List.Perm.append_left l this
      exact h2.trans List.perm_middle

theorem poolInv_init (rt : GoRuntime) (noise : F64 → F64 → F64) (wp : WindPosition)
    (orig : List Strand) (tasks : List (List Nat))
    (ht : tasks.flatten.Perm (List.range orig.length)) :
    PoolInv rt noise wp orig ⟨orig, tasks⟩ := by
  refine ⟨rfl, (ht.nodup_iff).2 (List.nodup_range _), ?_, ?_⟩
  · intro j hj
    exact List.mem_range.1 ((ht.mem_iff).1 hj)
  · intro j
    by_cases hj : j < orig.length
    · rw [if_pos ((ht.mem_iff).2 (List.mem_range.2 hj))]
    · have : ¬ j ∈ tasks.flatten := fun h => hj (List.mem_range.1 ((ht.mem_iff).1 h))
      simp only []
      rw [if_neg this, List.getElem?_eq_none (by omega)]
      rfl

theorem poolStep_inv (rt : GoRuntime) (noise : F64 → F64 → F64) (wp : WindPosition)
    (orig : List Strand) (hwf : ∀ s, s ∈ orig → s.wf) (st : Pool)
    (hinv : PoolInv rt noise wp orig st) (k : Nat) :
    ∃ st', poolStep rt noise wp st k = some st' ∧ PoolInv rt noise wp orig st' ∧
      (∀ j rest, st.pending[k]? = some (j :: rest) →
        st'.pending.flatten.length + 1 = st.pending.flatten.length) := by
  obtain ⟨hlen, hnd, hbound, hst⟩ := hinv
  unfold poolStep
  rcases hk : st.pending[k]? with _ | l
  · exact ⟨st, rfl, ⟨hlen, hnd, hbound, hst⟩, fun j rest h => by simp at h⟩
  rcases l with _ | ⟨j, rest⟩
  · exact ⟨st, rfl, ⟨hlen, hnd, hbound, hst⟩, fun j rest h => by simp at h⟩
  have hperm := pending_perm st.pending k j rest hk
  have hjmem : j ∈ st.pending.flatten := (hperm.mem_iff).2 (List.mem_cons_self _ _)
  have hjlt : j < orig.length := hbound j hjmem
  have hnd2 : (j :: (st.pending.set k rest).flatten).Nodup := (hperm.nodup_iff).1 hnd
  have hjnot : ¬ j ∈ (st.pending.set k rest).flatten := (List.nodup_cons.1 hnd2).1
  have hsj : st.strands[j]? = some orig[j] := by
    rw [hst j, if_pos hjmem, List.getElem?_eq_getElem hjlt]
  have hupd : updateStrand rt noise wp orig[j] = some (strandAfter rt noise wp orig[j]) :=
    updateStrand_of_wf rt noise wp _ (hwf _ (List.getElem_mem _))
  refine ⟨⟨st.strands.set j (strandAfter rt noise wp orig[j]), st.pending.set k rest⟩, ?_, ?_, ?_⟩
  · simp [updateAt, hsj, hupd]
  · refine ⟨by simp [hlen], (List.nodup_cons.1 hnd2).2, ?_, ?_⟩
    · intro j' hj'
      exact hbound j' ((hperm.mem_iff).2 (List.mem_cons_of_mem _ hj'))
    · intro j'
      simp only []
      by_cases e : j' = j
      · subst e
        rw [List.getElem?_set_self (by omega), if_neg hjnot, List.getElem?_eq_getElem hjlt]
        rfl
      · rw [List.getElem?_set_ne (fun h => e h.symm), hst j']
        have : j' ∈ st.pending.flatten ↔ j' ∈ (st.pending.set k rest).flatten := by
          rw [hperm.mem_iff, List.mem_cons]
          constructor
          · rintro (h | h)
            · exact absurd h e
            · exact h
          · exact fun h => Or.inr h
        by_cases hm : j' ∈ st.pending.flatten
        · rw [if_pos hm, if_pos (this.1 hm)]
        · rw [if_neg hm, if_neg (fun h => hm (this.2 h))]
  · intro j2 rest2 h2
    simp only [Option.some.injEq, List.cons.injEq] at h2
    have := hperm.length_eq
    simp only [List.length_cons] at this
    show (st.pending.set k rest).flatten.length + 1 = st.pending.flatten.length
    omega

theorem poolRun_inv (rt : GoRuntime) (noise : F64 → F64 → F64) (wp : WindPosition)
    (orig : List Strand) (hwf : ∀ s, s ∈ orig → s.wf) :
    ∀ (sched : List Nat) (st : Pool), PoolInv rt noise wp orig st →
      ∃ st', poolRun rt noise wp sched st = some st' ∧ PoolInv rt noise wp orig st' := by
  intro sched
  induction sched with
  | nil => intro st h; exact ⟨st, rfl, h⟩
  | cons k sched ih =>
    intro st h
    obtain ⟨st1, h1, hinv1, -⟩ := poolStep_inv rt noise wp orig hwf st h k
    obtain ⟨st2, h2, hinv2⟩ := ih st1 hinv1
    refine ⟨st2, ?_, hinv2⟩
    unfold poolRun at h2 ⊢
    rw [List.foldlM_cons, h1]
    exact h2

theorem poolDone_strands (rt : GoRuntime) (noise : F64 → F64 → F64) (wp : WindPosition)
    (orig : List Strand) (st : Pool) (hinv : PoolInv rt noise wp orig st)
    (hdone : poolDone st = true) : st.strands = orig.map (strandAfter rt noise wp) := by
  obtain ⟨-, -, -, hst⟩ := hinv
  have hnil : st.pending.flatten = [] := by
    rw [List.flatten_eq_nil_iff]
    intro l hl
    unfold poolDone at hdone
    rw [List.all_eq_true] at hdone
    exact List.isEmpty_iff.1 (hdone l hl)
  apply List.ext_getElem?
  intro j
  rw [hst j, hnil, if_neg (List.not_mem_nil j), List.getElem?_map]

theorem pool_progress (rt : GoRuntime) (noise : F64 → F64 → F64) (wp : WindPosition)
    (orig : List Strand) (hwf : ∀ s, s ∈ orig → s.wf) :
    ∀ (n : Nat) (st : Pool), st.pending.flatten.length = n → PoolInv rt noise wp orig st →
      ∃ sched st', poolRun rt noise wp sched st = some st' ∧ poolDone st' = true := by
  intro n
  induction n with
  | zero =>
    intro st hn _
    refine ⟨[], st, rfl, ?_⟩
    have hnil : st.pending.flatten = [] := List.length_eq_zero.1 hn
    rw [List.flatten_eq_nil_iff] at hnil
    unfold poolDone
    rw [List.all_eq_true]
    intro l hl
    exact List.isEmpty_iff.2 (hnil l hl)
  | succ n ih =>
    intro st hn hinv
    have hne : st.pending.flatten ≠ [] := by
      intro h; rw [h] at hn; simp at hn
    obtain ⟨x, hx⟩ := List.exists_mem_of_ne_nil _ hne
    obtain ⟨l, hl, hxl⟩ := List.mem_flatten.1 hx
    obtain ⟨k, hk⟩ := List.mem_iff_getElem?.1 hl
    obtain ⟨j, rest, hjr⟩ : ∃ j rest, l = j :: rest := by
      cases l with
      | nil => simp at hxl
      | cons j rest => exact ⟨j, rest, rfl⟩
    subst hjr
    obtain ⟨st1, h1, hinv1, hlen1⟩ := poolStep_inv rt noise wp orig hwf st hinv k
    have := hlen1 j rest hk
    obtain ⟨sched, st2, h2, hd⟩ := ih st1 (by omega) hinv1
    refine ⟨k :: sched, st2, ?_, hd⟩
    unfold poolRun at h2 ⊢
    rw [List.foldlM_cons, h1]
    exact h2

theorem strandTasks_flatten (N : Nat) : (strandTasks N).flatten = List.range N := by
  unfold strandTasks
  generalize List.range N = l
  induction l with
  | nil => rfl
  | cons a l ih => simp [List.flatten_cons, ih]

theorem modeTasks_perm (numCpu N : Nat) (hcpu : 1 ≤ numCpu) (mode : Mode)
    (hm : mode ≠ .single_thread) : (modeTasks numCpu N mode).flatten.Perm (List.range N) := by
  cases mode with
  | multithread_strands => simp only [modeTasks]; rw [strandTasks_flatten]
  | multithread_classic => exact classicTasks_perm numCpu N hcpu
  | single_thread => exact absurd rfl hm

/-! ## Equivalence of the three strategies -/

theorem frameResult_total (rt : GoRuntime) (noise : F64 → F64 → F64) (wp : WindPosition)
    (numCpu : Nat) (strands : List Strand) (hcpu : 1 ≤ numCpu)
    (hwf : ∀ s, s ∈ strands → s.wf) (mode : Mode) :
    FrameResult rt noise numCpu wp mode strands (strands.map (strandAfter rt noise wp)) := by
  by_cases hm : mode = .single_thread
  · subst hm
    exact singleThread_of_wf rt noise wp strands hwf
  · have hinv := poolInv_init rt noise wp strands _ (modeTasks_perm numCpu strands.length hcpu mode hm)
    obtain ⟨sched, st, hrun, hdone⟩ := pool_progress rt noise wp strands hwf _ _ rfl hinv
    obtain ⟨st', hrun', hinv'⟩ := poolRun_inv rt noise wp strands hwf sched _ hinv
    rw [hrun] at hrun'
    cases hrun'
    have := poolDone_strands rt noise wp strands st hinv' hdone
    cases mode with
    | single_thread => exact absurd rfl hm
    | multithread_strands => exact ⟨sched, st, hrun, hdone, this⟩
    | multithread_classic => exact ⟨sched, st, hrun, hdone, this⟩

theorem frameResult_unique (rt : GoRuntime) (noise : F64 → F64 → F64) (wp : WindPosition)
    (numCpu : Nat) (strands : List Strand) (hcpu : 1 ≤ numCpu)
    (hwf : ∀ s, s ∈ strands → s.wf) (mode : Mode) (b : List Strand)
    (h : FrameResult rt noise numCpu wp mode strands b) :
    b = strands.map (strandAfter rt noise wp) := by
  by_cases hm : mode = .single_thread
  · subst hm
    have h1 : singleThread rt noise wp strands = some b := h
    rw [singleThread_of_wf rt noise wp strands hwf] at h1
    exact (Option.some.inj h1).symm
  · have hinv := poolInv_init rt noise wp strands _ (modeTasks_perm numCpu strands.length hcpu mode hm)
    have key : ∀ sched st, poolRun rt noise wp sched
        ⟨strands, modeTasks numCpu strands.length mode⟩ = some st → poolDone st = true →
        st.strands = b → b = strands.map (strandAfter rt noise wp) := by
      intro sched st hrun hdone hb
      obtain ⟨st', hrun', hinv'⟩ := poolRun_inv rt noise wp strands hwf sched _ hinv
      rw [hrun] at hrun'
      cases hrun'
      rw [← hb]
      exact poolDone_strands rt noise wp strands st hinv' hdone
    cases mode with
    | single_thread => exact absurd rfl hm
    | multithread_strands =>
      obtain ⟨sched, st, hrun, hdone, hb⟩ := h
      exact key sched st hrun hdone hb
    | multithread_classic =>
      obtain ⟨sched, st, hrun, hdone, hb⟩ := h
      exact key sched st hrun hdone hb

/-- Claim C1. On a population of strands as `NewStrand` makes them (two position entries per
colour), for every wind position, noise function and `numCpu ≥ 1`: the
sequential strategy leaves a population `r`; in the per-strand and the
worker-pool strategy no order of the goroutines panics, some order brings all
goroutines to their end, and every order that does leaves exactly `r`. -/
theorem strategies_agree (rt : GoRuntime) (noise : F64 → F64 → F64) (wp : WindPosition)
    (numCpu : Nat) (strands : List Strand) (hcpu : 1 ≤ numCpu)
    (hwf : ∀ s, s ∈ strands → s.wf) :
    ∃ r, singleThread rt noise wp strands = some r ∧
      ∀ mode : Mode,
        (∀ sched, ∃ st, poolRun rt noise wp sched
            ⟨strands, modeTasks numCpu strands.length mode⟩ = some st ∧
            (mode ≠ .single_thread → poolDone st = true → st.strands = r)) ∧
        (∃ b, FrameResult rt noise numCpu wp mode strands b) ∧
        (∀ b, FrameResult rt noise numCpu wp mode strands b → b = r) := by
  refine ⟨strands.map (strandAfter rt noise wp), singleThread_of_wf rt noise wp strands hwf, ?_⟩
  intro mode
  refine ⟨?_, ⟨_, frameResult_total rt noise wp numCpu strands hcpu hwf mode⟩,
    frameResult_unique rt noise wp numCpu strands hcpu hwf mode⟩
  intro sched
  by_cases hm : mode = .single_thread
  · subst hm
    have : ∀ (sched : List Nat) (st : Pool), st.pending = [] →
        ∃ st', poolRun rt noise wp sched st = some st' := by
      intro sched
      induction sched with
      | nil => intro st _; exact ⟨st, rfl⟩
      | cons k sched ih =>
        intro st hst
        obtain ⟨st', h'⟩ := ih st hst
        refine ⟨st', ?_⟩
        unfold poolRun at h' ⊢
        rw [List.foldlM_cons]
        have : poolStep rt noise wp st k = some st := by
          unfold poolStep
          rw [hst]
          rfl
        rw [this]
        exact h'
    obtain ⟨st', h'⟩ := this sched ⟨strands, modeTasks numCpu strands.length .single_thread⟩ rfl
    exact ⟨st', h', fun h => absurd rfl h⟩
  · have hinv := poolInv_init rt noise wp strands _ (modeTasks_perm numCpu strands.length hcpu mode hm)
    obtain ⟨st, hrun, hinv'⟩ := poolRun_inv rt noise wp strands hwf sched _ hinv
    exact ⟨st, hrun, fun _ hdone => poolDone_strands rt noise wp strands st hinv' hdone⟩

theorem strategies_agree_witness :
    (1 ≤ 2) ∧ (∀ s, s ∈ samplePopulation → s.wf) ∧
    ∃ r, singleThread sampleRuntime sampleNoise ⟨.fin 0, .fin 0⟩ samplePopulation = some r ∧
      ∀ mode : Mode,
        (∀ sched, ∃ st, poolRun sampleRuntime sampleNoise ⟨.fin 0, .fin 0⟩ sched
            ⟨samplePopulation, modeTasks 2 samplePopulation.length mode⟩ = some st ∧
            (mode ≠ .single_thread → poolDone st = true → st.strands = r)) ∧
        (∃ b, FrameResult sampleRuntime sampleNoise 2 ⟨.fin 0, .fin 0⟩ mode samplePopulation b) ∧
        (∀ b, FrameResult sampleRuntime sampleNoise 2 ⟨.fin 0, .fin 0⟩ mode samplePopulation b →
          b = r) :=
  ⟨by decide, by decide,
    strategies_agree sampleRuntime sampleNoise ⟨.fin 0, .fin 0⟩ 2 samplePopulation
      (by decide) (by decide)⟩

/-! ## Root coordinates never change -/

theorem updateLoop_root (rt : GoRuntime) (tilt wind : F64) (top : Color) :
    ∀ (k i : Nat) (s t : Strand), Strand.updateLoop rt tilt wind top k i s = some t →
      t.X = s.X ∧ t.Y = s.Y := by
  intro k
  induction k with
  | zero =>
    intro i s t h
    simp only [Strand.updateLoop, Option.some.injEq] at h
    subst h
    exact ⟨rfl, rfl⟩
  | succ k ih =>
    intro i s t h
    simp only [Strand.updateLoop] at h
    split_ifs at h
    all_goals first
      | (have h2 := ih _ _ _ h; exact h2)
      | (cases h; first | done | exact ⟨rfl, rfl⟩)

theorem updateStrand_root (rt : GoRuntime) (noise : F64 → F64 → F64) (wp : WindPosition)
    (s t : Strand) (h : updateStrand rt noise wp s = some t) : t.X = s.X ∧ t.Y = s.Y :=
  updateLoop_root rt _ _ _ _ _ s t h

theorem updateAt_root (rt : GoRuntime) (noise : F64 → F64 → F64) (wp : WindPosition)
    (a b : List Strand) (j : Nat) (h : updateAt rt noise wp a j = some b) :
    b.map (fun s => (s.X, s.Y)) = a.map (fun s => (s.X, s.Y)) := by
  rcases hj : a[j]? with _ | s
  · simp [updateAt, hj] at h
  · simp only [updateAt, hj] at h
    rcases hu : updateStrand rt noise wp s with _ | t
    · rw [hu] at h; simp at h
    · rw [hu] at h
      simp only [Option.map_some', Option.some.injEq] at h
      subst h
      obtain ⟨hx, hy⟩ := updateStrand_root rt noise wp s t hu
      apply List.ext_getElem?
      intro i
      rw [List.getElem?_map, List.getElem?_map, List.getElem?_set]
      by_cases e : j = i
      · subst e
        rw [if_pos rfl, hj]
        obtain ⟨hlt, -⟩ := List.getElem?_eq_some.1 hj
        rw [if_pos hlt]
        simp [hx, hy]
      · rw [if_neg e]

theorem poolRun_root (rt : GoRuntime) (noise : F64 → F64 → F64) (wp : WindPosition) :
    ∀ (sched : List Nat) (st st' : Pool), poolRun rt noise wp sched st = some st' →
      st'.strands.map (fun s => (s.X, s.Y)) = st.strands.map (fun s => (s.X, s.Y)) := by
  intro sched
  induction sched with
  | nil =>
    intro st st' h
    simp only [poolRun, List.foldlM_nil] at h
    cases h
    rfl
  | cons k sched ih =>
    intro st st' h
    unfold poolRun at h
    rw [List.foldlM_cons] at h
    rcases h1 : poolStep rt noise wp st k with _ | st1
    · rw [h1] at h; simp at h
    · rw [h1] at h
      have h2 := ih st1 st' h
      rw [h2]
      unfold poolStep at h1
      split at h1
      · rename_i j rest hk
        rcases hu : updateAt rt noise wp st.strands j with _ | l
        · rw [hu] at h1; simp at h1
        · rw [hu] at h1
          simp only [Option.map_some', Option.some.injEq] at h1
          subst h1
          exact updateAt_root rt noise wp _ _ j hu
      · simp only [Option.some.injEq] at h1
        subst h1
        rfl

theorem mapM_root (f : Strand → Option Strand)
    (hf : ∀ s t, f s = some t → t.X = s.X ∧ t.Y = s.Y) :
    ∀ (a b : List Strand), a.mapM f = some b →
      b.map (fun s => (s.X, s.Y)) = a.map (fun s => (s.X, s.Y)) := by
  intro a
  induction a with
  | nil =>
    intro b h
    simp only [List.mapM_nil] at h
    cases h
    rfl
  | cons s a ih =>
    intro b h
    rw [List.mapM_cons] at h
    rcases h1 : f s with _ | t
    · rw [h1] at h; simp at h
    · rcases h2 : a.mapM f with _ | l
      · rw [h1, h2] at h; simp at h
      · rw [h1, h2] at h
        simp only [Option.some_bind, Option.pure_def, Option.bind_eq_bind,
          Option.some.injEq] at h
        subst h
        obtain ⟨hx, hy⟩ := hf s t h1
        simp [ih l h2, hx, hy]

theorem frameResult_root (rt : GoRuntime) (noise : F64 → F64 → F64) (numCpu : Nat)
    (wp : WindPosition) (mode : Mode) (a b : List Strand)
    (h : FrameResult rt noise numCpu wp mode a b) :
    b.map (fun s => (s.X, s.Y)) = a.map (fun s => (s.X, s.Y)) := by
  cases mode with
  | single_thread => exact mapM_root _ (updateStrand_root rt noise wp) a b h
  | multithread_strands =>
    obtain ⟨sched, st, hrun, -, hb⟩ := h
    rw [← hb]
    exact poolRun_root rt noise wp sched _ st hrun
  | multithread_classic =>
    obtain ⟨sched, st, hrun, -, hb⟩ := h
    rw [← hb]
    exact poolRun_root rt noise wp sched _ st hrun

theorem frames_root (rt : GoRuntime) (noise : F64 → F64 → F64) (numCpu : Nat)
    (a b : List Strand) (h : Frames rt noise numCpu a b) :
    b.map (fun s => (s.X, s.Y)) = a.map (fun s => (s.X, s.Y)) := by
  induction h with
  | done a => rfl
  | frame wp mode a b c hab _ ih => rw [ih, frameResult_root rt noise numCpu wp mode a b hab]

theorem sorted_of_root_eq (a b : List Strand)
    (h : b.map (fun s => (s.X, s.Y)) = a.map (fun s => (s.X, s.Y)))
    (hs : a.Sorted (fun s t => s.Y ≤ t.Y)) : b.Sorted (fun s t => s.Y ≤ t.Y) := by
  have ha : (a.map (fun s => (s.X, s.Y))).Pairwise (fun p q => p.2 ≤ q.2) := by
    rw [List.pairwise_map]; exact hs
  rw [← h, List.pairwise_map] at ha
  exact ha

theorem sortByY_sorted (l : List Strand) : (sortByY l).Sorted (fun s t => s.Y ≤ t.Y) := by
  haveI : IsTotal Strand (fun s t => s.Y ≤ t.Y) := ⟨fun s t => le_total s.Y t.Y⟩
  haveI : IsTrans Strand (fun s t => s.Y ≤ t.Y) := ⟨fun _ _ _ h1 h2 => le_trans h1 h2⟩
  exact List.sorted_insertionSort _ l

/-- Claim C7. The startup sort leaves a permutation of the created strands that is
non-decreasing by `Y` (strands with `Y` = 50, 10, 30 come out in the order 10,
30, 50), and after any number of frames, in any modes and under any orders of
the goroutines, the collection still has the same root `(X, Y)` at every
place, hence the same length and the same non-decreasing order by `Y`. -/
theorem sort_order_preserved (rt : GoRuntime) (noise : F64 → F64 → F64) (numCpu : Nat)
    (created later : List Strand) (h : Frames rt noise numCpu (sortByY created) later) :
    (sortByY created).Perm created ∧
    (sortByY created).Sorted (fun s t => s.Y ≤ t.Y) ∧
    (∀ a b c : Strand, a.Y = 50 → b.Y = 10 → c.Y = 30 → sortByY [a, b, c] = [b, c, a]) ∧
    later.map (fun s => (s.X, s.Y)) = (sortByY created).map (fun s => (s.X, s.Y)) ∧
    later.length = created.length ∧
    later.Sorted (fun s t => s.Y ≤ t.Y) := by
  have hroot := frames_root rt noise numCpu _ _ h
  refine ⟨List.perm_insertionSort _ created, sortByY_sorted created, ?_, hroot, ?_,
    sorted_of_root_eq _ _ hroot (sortByY_sorted created)⟩
  · intro a b c ha hb hc
    simp [sortByY, List.insertionSort, List.orderedInsert, ha, hb, hc]
  · have := congrArg List.length hroot
    simp only [List.length_map] at this
    rw [this]
    exact (List.perm_insertionSort _ created).length_eq

theorem sort_order_preserved_witness :
    Frames sampleRuntime sampleNoise 2 (sortByY samplePopulation)
      ((sortByY samplePopulation).map (strandAfter sampleRuntime sampleNoise ⟨.fin 0, .fin 0⟩)) ∧
    (sortByY samplePopulation).map (fun s => s.Y) = [10, 30, 50] ∧
    ((sortByY samplePopulation).map
      (strandAfter sampleRuntime sampleNoise ⟨.fin 0, .fin 0⟩)).Sorted (fun s t => s.Y ≤ t.Y) :=
  have hf : Frames sampleRuntime sampleNoise 2 (sortByY samplePopulation)
      ((sortByY samplePopulation).map (strandAfter sampleRuntime sampleNoise ⟨.fin 0, .fin 0⟩)) :=
    Frames.frame ⟨.fin 0, .fin 0⟩ .multithread_classic _ _ _
      (frameResult_total sampleRuntime sampleNoise ⟨.fin 0, .fin 0⟩ 2 _ (by decide)
        (by decide) .multithread_classic)
      (Frames.done _)
  ⟨hf, by decide,
    (sort_order_preserved sampleRuntime sampleNoise 2 samplePopulation _ hf).2.2.2.2.2⟩

/-! ## What `Update` leaves in a strand -/

theorem updated_colors_length (rt : GoRuntime) (tilt wind : F64) (s : Strand) :
    (s.updated rt tilt wind).colors.length = s.colors.length := by
  simp [Strand.updated]

theorem updated_positions_length (rt : GoRuntime) (tilt wind : F64) (s : Strand) :
    (s.updated rt tilt wind).positions.length = 2 * s.colors.length := by
  simp [Strand.updated]

theorem updated_wf (rt : GoRuntime) (tilt wind : F64) (s : Strand) :
    (s.updated rt tilt wind).wf := by
  simp [Strand.wf, Strand.updated]

theorem updated_color (rt : GoRuntime) (tilt wind : F64) (s : Strand) (i : Nat)
    (hi : i < s.colors.length) :
    (s.updated rt tilt wind).colors[i]? =
      some (segmentColor rt (topStrandColor rt wind) s.colors.length i) := by
  simp [Strand.updated, List.getElem?_map, List.getElem?_range hi]

theorem updated_x (rt : GoRuntime) (tilt wind : F64) (s : Strand) (i : Nat)
    (hi : i < s.colors.length) :
    (s.updated rt tilt wind).positions[2 * i]? = some (s.xAt rt tilt wind i) := by
  have h : 2 * i < 2 * s.colors.length := by omega
  simp [Strand.updated, List.getElem?_map, List.getElem?_range h]

theorem updated_y (rt : GoRuntime) (tilt wind : F64) (s : Strand) (i : Nat)
    (hi : i < s.colors.length) :
    (s.updated rt tilt wind).positions[2 * i + 1]? = some (s.yAt i) := by
  have h : 2 * i + 1 < 2 * s.colors.length := by omega
  have h1 : (2 * i + 1) % 2 = 1 := by omega
  have h2 : (2 * i + 1) / 2 = i := by omega
  simp [Strand.updated, List.getElem?_map, List.getElem?_range h, h1, h2]

theorem updated_congr (rt : GoRuntime) (tilt wind : F64) (s1 s2 : Strand)
    (hX : s1.X = s2.X) (hY : s1.Y = s2.Y) (hn : s1.colors.length = s2.colors.length) :
    s1.updated rt tilt wind = s2.updated rt tilt wind := by
  simp [Strand.updated, Strand.xAt, Strand.yAt, hX, hY, hn]

theorem yAt_eq (s : Strand) (i : Nat) : s.yAt i = wrapInt32 (s.Y - (i : Int)) := by
  unfold Strand.yAt wrapInt32
  omega

theorem wrapInt32_of_isInt32 (z : Int) (h : isInt32 z) : wrapInt32 z = z := by
  unfold isInt32 at h
  unfold wrapInt32
  omega

theorem freshStrand_wf (x y : Int) (n : Nat) : (freshStrand x y n).wf := by
  simp [Strand.wf, freshStrand]

/-! ## C3: vertical coordinates -/

/-- Claim C3, as stated, fails: on the strand with `Y = -2147483648` (the least
int32) and two segments, `Update` leaves `positions[3] = 2147483647`, not
`Y - 1 = -2147483649`: the subtraction `s.Y - int32(i)` wraps around. -/
theorem vertical_coordinate_counterexample :
    ¬ (∀ (rt : GoRuntime) (tilt wind : F64) (s : Strand), s.wf → isInt32 s.X → isInt32 s.Y →
        ∀ t, s.Update rt tilt wind = some t → ∀ i, i < s.colors.length →
          t.positions[2 * i + 1]? = some (s.Y - (i : Int))) := by
  intro h
  have h1 := h sampleRuntime (.fin (1 / 2)) (.fin 1) (freshStrand 0 (-2147483648) 2)
    (freshStrand_wf _ _ _) (by decide) (by decide) _
    (Update_eq_updated _ _ _ _ (freshStrand_wf _ _ _)) 1 (by decide)
  rw [updated_y _ _ _ _ 1 (by decide), yAt_eq] at h1
  revert h1
  decide

/-- Claim C3, amended. For every strand with `len(positions) = 2*len(colors)`, every tilt and
every wind, `Update` returns and the vertical coordinate of every segment `i`
is `Y - i` reduced to int32, whatever the tilt and the wind; it is the integer
`Y - i` whenever that is an int32. -/
theorem vertical_coordinate (rt : GoRuntime) (tilt wind : F64) (s : Strand) (h : s.wf) :
    ∃ t, s.Update rt tilt wind = some t ∧ ∀ i, i < s.colors.length →
      t.positions[2 * i + 1]? = some (wrapInt32 (s.Y - (i : Int))) ∧
      (isInt32 (s.Y - (i : Int)) → t.positions[2 * i + 1]? = some (s.Y - (i : Int))) := by
  refine ⟨_, Update_eq_updated rt tilt wind s h, ?_⟩
  intro i hi
  have := updated_y rt tilt wind s i hi
  rw [yAt_eq] at this
  refine ⟨this, fun hr => ?_⟩
  rw [this, wrapInt32_of_isInt32 _ hr]

theorem vertical_coordinate_witness :
    (freshStrand 10 20 5).wf ∧
    ∃ t, (freshStrand 10 20 5).Update sampleRuntime (.fin (1 / 2)) (.fin 1) = some t ∧
      ∀ i, i < (freshStrand 10 20 5).colors.length →
        t.positions[2 * i + 1]? = some (wrapInt32 ((freshStrand 10 20 5).Y - (i : Int))) ∧
        (isInt32 ((freshStrand 10 20 5).Y - (i : Int)) →
          t.positions[2 * i + 1]? = some ((freshStrand 10 20 5).Y - (i : Int))) :=
  ⟨by decide, vertical_coordinate sampleRuntime (.fin (1 / 2)) (.fin 1) (freshStrand 10 20 5)
    (by decide)⟩

/-! ## C5: the segment count -/

theorem randCoord_some (r screen : Int) (h : wrapInt32 screen ≠ 0) :
    ∃ c, randCoord r screen = some c := by
  unfold randCoord
  rw [if_neg h]
  exact ⟨_, rfl⟩

/-- Claim C5. For every non-negative first draw (and a screen of non-zero width and
height, without which `NewStrand` divides by zero), `NewStrand` returns a
strand with `4 ≤ len(colors) < 10` and `len(positions) = 2*len(colors)`; and on
every such strand `Update`, for every tilt and wind, returns (no index is out
of range) a strand with the same `X`, `Y`, `len(colors)` and `len(positions)`,
which again has two position entries per colour. -/
theorem segment_count_invariant (width height r1 r2 r3 : Int) (hr : 0 ≤ r1)
    (hw : wrapInt32 width ≠ 0) (hh : wrapInt32 height ≠ 0) :
    (∃ s, NewStrand width height r1 r2 r3 = some s ∧
      4 ≤ s.colors.length ∧ s.colors.length < 10 ∧
      s.positions.length = 2 * s.colors.length) ∧
    (∀ (s : Strand) (rt : GoRuntime) (tilt wind : F64),
      s.positions.length = 2 * s.colors.length →
      ∃ t, s.Update rt tilt wind = some t ∧ t.X = s.X ∧ t.Y = s.Y ∧
        t.colors.length = s.colors.length ∧ t.positions.length = s.positions.length ∧
        t.positions.length = 2 * t.colors.length) := by
  constructor
  · obtain ⟨x, hx⟩ := randCoord_some r2 width hw
    obtain ⟨y, hy⟩ := randCoord_some r3 height hh
    have hm : Int.tmod r1 (STRAND_MAX_LENGTH - STRAND_MIN_LENGTH) = r1 % 6 := by
      rw [Int.tmod_eq_emod hr (by decide)]
      rfl
    have hlen : wrapInt32 (STRAND_MIN_LENGTH + Int.tmod r1 (STRAND_MAX_LENGTH - STRAND_MIN_LENGTH))
        = 4 + r1 % 6 := by
      rw [hm]
      unfold wrapInt32 STRAND_MIN_LENGTH
      omega
    have hlen2 : wrapInt32 ((4 + r1 % 6) * 2) = (4 + r1 % 6) * 2 := by
      unfold wrapInt32
      omega
    have hnn : ¬ (4 + r1 % 6 < 0) := by omega
    refine ⟨{ X := x, Y := y, colors := List.replicate (4 + r1 % 6).toNat Color.zero,
              positions := List.replicate ((4 + r1 % 6) * 2).toNat 0 }, ?_, ?_, ?_, ?_⟩
    · unfold NewStrand
      simp only [hx, hy, hlen, hlen2, Option.bind_eq_bind, Option.some_bind, if_neg hnn]
    · simp only [List.length_replicate]; omega
    · simp only [List.length_replicate]; omega
    · simp only [List.length_replicate]; omega
  · intro s rt tilt wind hs
    refine ⟨_, Update_eq_updated rt tilt wind s hs, rfl, rfl, updated_colors_length rt tilt wind s,
      ?_, ?_⟩
    · rw [updated_positions_length, hs]
    · rw [updated_positions_length, updated_colors_length]

theorem segment_count_invariant_witness :
    (0 : Int) ≤ 7 ∧ wrapInt32 1600 ≠ 0 ∧ wrapInt32 900 ≠ 0 ∧
    (∃ s, NewStrand 1600 900 7 3000 8000 = some s ∧
      4 ≤ s.colors.length ∧ s.colors.length < 10 ∧
      s.positions.length = 2 * s.colors.length) :=
  ⟨by decide, by decide, by decide,
    (segment_count_invariant 1600 900 7 3000 8000 (by decide) (by decide) (by decide)).1⟩

/-! ## C9: `Update` recomputes everything -/

/-- Claim C9. Two strands with the same `X`, `Y` and segment count (and two position
entries per colour), whatever their previous colours and positions, are left
identical by `Update(tilt, wind)`; and a second `Update` with the same
arguments returns the strand left by the first. -/
theorem update_recomputes (rt : GoRuntime) (tilt wind : F64) (s1 s2 : Strand)
    (h1 : s1.wf) (h2 : s2.wf) (hX : s1.X = s2.X) (hY : s1.Y = s2.Y)
    (hn : s1.colors.length = s2.colors.length) :
    ∃ t, s1.Update rt tilt wind = some t ∧ s2.Update rt tilt wind = some t ∧
      t.Update rt tilt wind = some t := by
  refine ⟨s1.updated rt tilt wind, Update_eq_updated rt tilt wind s1 h1, ?_, ?_⟩
  · rw [Update_eq_updated rt tilt wind s2 h2, updated_congr rt tilt wind s1 s2 hX hY hn]
  · rw [Update_eq_updated rt tilt wind _ (updated_wf rt tilt wind s1)]
    congr 1
    exact updated_congr rt tilt wind _ _ rfl rfl (updated_colors_length rt tilt wind s1)

theorem update_recomputes_witness :
    (freshStrand 10 20 5).wf ∧
    (⟨10, 20, List.replicate 5 STRAND_COLOR, List.replicate 10 7⟩ : Strand).wf ∧
    ∃ t, (freshStrand 10 20 5).Update sampleRuntime (.fin (1 / 2)) (.fin 1) = some t ∧
      (⟨10, 20, List.replicate 5 STRAND_COLOR, List.replicate 10 7⟩ : Strand).Update
        sampleRuntime (.fin (1 / 2)) (.fin 1) = some t ∧
      t.Update sampleRuntime (.fin (1 / 2)) (.fin 1) = some t :=
  ⟨by decide, by decide,
    update_recomputes sampleRuntime (.fin (1 / 2)) (.fin 1) (freshStrand 10 20 5)
      ⟨10, 20, List.replicate 5 STRAND_COLOR, List.replicate 10 7⟩
      (by decide) (by decide) rfl rfl (by decide)⟩

/-! ## Exact float computations -/

theorem round64_zero : F64.round64 0 = .fin 0 := by
  have := round64_dyadic 0 0 (by norm_num) (by norm_num) (by norm_num)
  simpa using this

theorem round64_natCast (n : Nat) (hn : n < 2 ^ 53) : F64.round64 (n : ℚ) = .fin (n : ℚ) := by
  have := ofInt_small (n : Int) (by rw [abs_of_nonneg (by omega)]; exact_mod_cast hn)
  simpa [F64.ofInt] using this

theorem ofInt_natCast (n : Nat) (hn : n < 2 ^ 53) : F64.ofInt (n : Int) = .fin (n : ℚ) := by
  have := ofInt_small (n : Int) (by rw [abs_of_nonneg (by omega)]; exact_mod_cast hn)
  simpa using this

theorem mul_fin_zero_left (q : ℚ) : F64.mul (.fin 0) (.fin q) = .fin 0 := by
  simp [F64.mul, round64_zero]

theorem mul_fin_zero_right (q : ℚ) : F64.mul (.fin q) (.fin 0) = .fin 0 := by
  simp [F64.mul, round64_zero]

theorem truncRat_intCast (z : Int) : truncRat (z : ℚ) = z := by
  unfold truncRat
  split_ifs <;> simp

theorem truncRat_natCast (n : Nat) : truncRat (n : ℚ) = n := by
  have := truncRat_intCast (n : Int)
  simpa using this

theorem roundAway_intCast (z : Int) : roundAway (z : ℚ) = z := by
  unfold roundAway
  split_ifs with h
  · rw [Int.floor_eq_iff]
    constructor <;> linarith
  · have : ⌊-(z : ℚ) + 1 / 2⌋ = -z := by
      rw [Int.floor_eq_iff]
      constructor <;> push_cast <;> linarith
    rw [this]
    ring

theorem toUint8_natCast (rt : GoRuntime) (n : Nat) (hn : n < 256) :
    toUint8 rt (.fin (n : ℚ)) = ⟨n, hn⟩ := by
  unfold toUint8
  simp only [truncRat_natCast]
  rw [dif_pos ⟨by omega, by omega⟩]
  simp

theorem toInt32_zero (rt : GoRuntime) : toInt32 rt (.fin 0) = 0 := by
  have h : truncRat (0 : ℚ) = 0 := by simpa using truncRat_intCast 0
  unfold toInt32
  simp only [h]
  rw [if_pos (by decide)]

theorem toInt32_intCast (rt : GoRuntime) (z : Int) (hz : isInt32 z) :
    toInt32 rt (.fin (z : ℚ)) = z := by
  unfold toInt32
  simp only [truncRat_intCast]
  rw [if_pos hz]

/-- The half of 255 truncates to 127. -/
theorem truncRat_half_255 : truncRat (255 / 2 : ℚ) = 127 := by
  unfold truncRat
  rw [if_pos (by norm_num), Int.floor_eq_iff]
  constructor <;> norm_num

/-- A zero channel stays zero under any finite amount. -/
theorem lerpChannel_zero_zero (rt : GoRuntime) (q : ℚ) :
    lerpChannel rt 0 0 (.fin q) = 0 := by
  unfold lerpChannel
  have h0 : F64.ofInt ((((0 : Fin 256) - 0 : Fin 256).val : Nat) : Int) = .fin 0 := by
    have := ofInt_natCast 0 (by norm_num)
    simpa using this
  rw [h0, mul_fin_zero_left]
  have := toUint8_natCast rt 0 (by norm_num)
  simp only [Nat.cast_zero] at this
  rw [this]
  rfl

/-- The blend of 0 toward 255 by one half is 127. -/
theorem lerpChannel_255_half (rt : GoRuntime) :
    lerpChannel rt 0 255 (.fin (1 / 2)) = 127 := by
  unfold lerpChannel
  have h0 : F64.ofInt ((((255 : Fin 256) - 0 : Fin 256).val : Nat) : Int) = .fin 255 := by
    have := ofInt_natCast 255 (by norm_num)
    simpa using this
  rw [h0]
  have h1 : F64.mul (.fin 255) (.fin (1 / 2)) = .fin (255 / 2) := by
    have := round64_half 255 (by norm_num)
    simp only [F64.mul]
    rw [show (255 : ℚ) * (1 / 2) = ((255 : Int) : ℚ) / 2 by norm_num, this]
    norm_num
  rw [h1]
  unfold toUint8
  simp only [truncRat_half_255]
  rw [dif_pos (by decide)]
  rfl

theorem amount_no_wind :
    F64.add (.fin 0) (F64.mul (F64.sub (.fin 1) (.fin 0)) WIND_POWER) = WIND_POWER := by
  have h1 : F64.round64 (1 : ℚ) = .fin 1 := by
    have := round64_natCast 1 (by norm_num)
    simpa using this
  have h2 : F64.round64 (1 / 2 : ℚ) = .fin (1 / 2) := by
    have := round64_half 1 (by norm_num)
    simpa using this
  show F64.add (.fin 0) (F64.mul (F64.add (.fin 1) (F64.neg (.fin 0))) (.fin (1 / 2)))
    = .fin (1 / 2)
  have e1 : F64.add (.fin 1) (F64.neg (.fin 0)) = .fin 1 := by
    simp only [F64.neg, F64.add]
    rw [show (1 : ℚ) + -0 = 1 by norm_num, h1]
  have e2 : F64.mul (.fin 1) (.fin (1 / 2)) = .fin (1 / 2) := by
    simp only [F64.mul]
    rw [show (1 : ℚ) * (1 / 2) = 1 / 2 by norm_num, h2]
  rw [e1, e2]
  simp only [F64.add]
  rw [show (0 : ℚ) + 1 / 2 = 1 / 2 by norm_num, h2]

/-! ## C8: no wind -/

/-- Claim C8. For every strand (two position entries per colour, `X` an int32) and every
finite tilt, provided `math.Pow` returns finite values on the segment indices,
`Update(tilt, 0)` returns and leaves `positions[2*i] = X` for every segment;
the top colour it blends toward is `LerpColor({0,0,0,0}, STRAND_COLOR,
WIND_POWER)`, which is `{0, 127, 0, 127}`: its alpha is not 0. -/
theorem no_wind (rt : GoRuntime) (tilt : F64) (s : Strand) (hs : s.wf) (hX : isInt32 s.X)
    (htilt : tilt.isFinite = true)
    (hpow : ∀ i, i < s.colors.length →
      (mathPow rt (F64.ofInt (i : Int)) (.fin (3 / 2))).isFinite = true) :
    (∃ t, s.Update rt tilt (.fin 0) = some t ∧
      ∀ i, i < s.colors.length → t.positions[2 * i]? = some s.X) ∧
    topStrandColor rt (.fin 0) = LerpColor rt Color.zero STRAND_COLOR WIND_POWER ∧
    LerpColor rt Color.zero STRAND_COLOR WIND_POWER = ⟨0, 127, 0, 127⟩ ∧
    (LerpColor rt Color.zero STRAND_COLOR WIND_POWER).A ≠ 0 := by
  have hc : LerpColor rt Color.zero STRAND_COLOR WIND_POWER = ⟨0, 127, 0, 127⟩ := by
    simp only [LerpColor, Color.zero, STRAND_COLOR, WIND_POWER, lerpChannel_zero_zero,
      lerpChannel_255_half]
  refine ⟨⟨_, Update_eq_updated rt tilt _ s hs, ?_⟩, ?_, hc, ?_⟩
  · intro i hi
    rw [updated_x rt tilt _ s i hi]
    obtain ⟨q, rfl⟩ : ∃ q, tilt = .fin q := by
      cases tilt with
      | fin q => exact ⟨q, rfl⟩
      | inf n => simp [F64.isFinite] at htilt
      | nan => simp [F64.isFinite] at htilt
    obtain ⟨p, hp⟩ : ∃ p, mathPow rt (F64.ofInt (i : Int)) (.fin (3 / 2)) = .fin p := by
      have := hpow i hi
      cases h : mathPow rt (F64.ofInt (i : Int)) (.fin (3 / 2)) with
      | fin p => exact ⟨p, rfl⟩
      | inf n => rw [h] at this; simp [F64.isFinite] at this
      | nan => rw [h] at this; simp [F64.isFinite] at this
    have hoff : segmentOffset rt (.fin q) (.fin 0) i = .fin 0 := by
      unfold segmentOffset
      rw [hp, mul_fin_zero_right, mul_fin_zero_left, mul_fin_zero_left]
      have := roundAway_intCast 0
      simp only [Int.cast_zero] at this
      simp [F64.mathRound, this]
    unfold Strand.xAt
    rw [hoff, toInt32_zero, add_zero, wrapInt32_of_isInt32 _ hX]
  · unfold topStrandColor
    rw [amount_no_wind]
  · rw [hc]
    decide

theorem no_wind_witness :
    (freshStrand 10 20 2).wf ∧ isInt32 (freshStrand 10 20 2).X ∧
    (F64.fin (1 / 2)).isFinite = true ∧
    (∃ t, (freshStrand 10 20 2).Update sampleRuntime (.fin (1 / 2)) (.fin 0) = some t ∧
      ∀ i, i < (freshStrand 10 20 2).colors.length → t.positions[2 * i]? = some 10) :=
  ⟨by decide, by decide, rfl,
    (no_wind sampleRuntime (.fin (1 / 2)) (freshStrand 10 20 2) (by decide) (by decide) rfl
      (by
        intro i hi
        have hi2 : i < 2 := hi
        interval_cases i
        · have h0 : F64.ofInt ((0 : Nat) : Int) = .fin 0 := by
            have := ofInt_natCast 0 (by norm_num)
            simpa using this
          rw [h0]
          simp [mathPow, F64.isFinite, F64.toRat]
        · have h1 : F64.ofInt ((1 : Nat) : Int) = .fin 1 := by
            have := ofInt_natCast 1 (by norm_num)
            simpa using this
          rw [h1]
          simp [mathPow, F64.isFinite])).1⟩

/-! ## C6: `LerpColor` wraps around when a channel decreases -/

/-- Claim C6 fails on the code. `LerpColor({200,0,0,0}, {100,0,0,0}, 0.5)` has red channel 22: the
uint8 difference `100 - 200` is 156, its half 78 is added to 200 and wraps
around.  The result is not between 100 and 200 (the interpolation is 150). -/
theorem lerpColor_wraps (rt : GoRuntime) :
    (LerpColor rt ⟨200, 0, 0, 0⟩ ⟨100, 0, 0, 0⟩ (.fin (1 / 2))).R = 22 ∧
    ¬ ((100 : Fin 256) ≤ (LerpColor rt ⟨200, 0, 0, 0⟩ ⟨100, 0, 0, 0⟩ (.fin (1 / 2))).R ∧
       (LerpColor rt ⟨200, 0, 0, 0⟩ ⟨100, 0, 0, 0⟩ (.fin (1 / 2))).R ≤ (200 : Fin 256)) := by
  have h : (LerpColor rt ⟨200, 0, 0, 0⟩ ⟨100, 0, 0, 0⟩ (.fin (1 / 2))).R = 22 := by
    simp only [LerpColor, lerpChannel]
    have h0 : F64.ofInt ((((100 : Fin 256) - 200 : Fin 256).val : Nat) : Int) = .fin 156 := by
      have := ofInt_natCast 156 (by norm_num)
      have e : ((100 : Fin 256) - 200 : Fin 256).val = 156 := by decide
      rw [e]
      simpa using this
    rw [h0]
    have h1 : F64.mul (.fin 156) (.fin (1 / 2)) = .fin ((78 : Nat) : ℚ) := by
      have := round64_natCast 78 (by norm_num)
      simp only [F64.mul]
      rw [show (156 : ℚ) * (1 / 2) = ((78 : Nat) : ℚ) by norm_num, this]
    rw [h1, toUint8_natCast rt 78 (by norm_num)]
    decide
  rw [h]
  exact ⟨rfl, by decide⟩

/-! ## C4: horizontal coordinates -/

theorem mathPow_one (rt : GoRuntime) (y : F64) : mathPow rt (.fin 1) y = .fin 1 := by
  simp [mathPow]

theorem roundAway_one : roundAway (1 : ℚ) = 1 := by
  have := roundAway_intCast 1
  simpa using this

theorem round64_one : F64.round64 (1 : ℚ) = .fin 1 := by
  have := round64_natCast 1 (by norm_num)
  simpa using this

theorem round64_two : F64.round64 (2 : ℚ) = .fin 2 := by
  have := round64_natCast 2 (by norm_num)
  simpa using this

/-- The offset of segment 1 under tilt 2 and wind 1 is exactly 1. -/
theorem segmentOffset_two_one (rt : GoRuntime) :
    segmentOffset rt (.fin 2) (.fin 1) 1 = .fin 1 := by
  unfold segmentOffset
  have h1 : F64.ofInt ((1 : Nat) : Int) = .fin 1 := by
    have := ofInt_natCast 1 (by norm_num)
    simpa using this
  rw [h1, mathPow_one]
  have e1 : F64.mul (.fin 2) (.fin 1) = .fin 2 := by
    simp only [F64.mul]
    rw [show (2 : ℚ) * 1 = 2 by norm_num, round64_two]
  have e2 : F64.mul (.fin 2) (.fin (1 / 2)) = .fin 1 := by
    simp only [F64.mul]
    rw [show (2 : ℚ) * (1 / 2) = 1 by norm_num, round64_one]
  have e3 : F64.mul (.fin 1) (.fin 1) = .fin 1 := by
    simp only [F64.mul]
    rw [show (1 : ℚ) * 1 = 1 by norm_num, round64_one]
  rw [e1, e2, e3]
  simp only [F64.mathRound, roundAway_one]
  norm_num

/-- Claim C4, as stated, fails: on the strand with `X = 2147483647` (the greatest
int32) and two segments, `Update(2, 1)` computes the offset
`round(2 * 1 * 0.5 * 1^1.5) = 1` for segment 1 and leaves
`positions[2] = -2147483648`, not `X + 1`: the addition `s.X + int32(offset)`
wraps around.  The claim is taken at the segments `i = m*m`, whose power
`i^1.5` is the integer `m^3`. -/
theorem horizontal_coordinate_counterexample :
    ¬ (∀ (rt : GoRuntime) (tilt wind : ℚ) (s : Strand), s.wf → isInt32 s.X → isInt32 s.Y →
        ∀ t, s.Update rt (.fin tilt) (.fin wind) = some t →
          ∀ m : Nat, m * m < s.colors.length →
            t.positions[2 * (m * m)]? =
              some (s.X + roundAway (tilt * wind * (1 / 2) * (m : ℚ) ^ 3))) := by
  intro h
  have h1 := h sampleRuntime 2 1 (freshStrand 2147483647 0 2)
    (freshStrand_wf _ _ _) (by decide) (by decide) _
    (Update_eq_updated _ _ _ _ (freshStrand_wf _ _ _)) 1 (by decide)
  rw [updated_x _ _ _ _ (1 * 1) (by decide)] at h1
  unfold Strand.xAt at h1
  rw [show (1 * 1 : Nat) = 1 by rfl, segmentOffset_two_one,
    show (F64.fin 1) = F64.fin ((1 : Int) : ℚ) by norm_num,
    toInt32_intCast _ 1 (by decide)] at h1
  have e : roundAway ((2 : ℚ) * 1 * (1 / 2) * ((1 : Nat) : ℚ) ^ 3) = 1 := by
    rw [show (2 : ℚ) * 1 * (1 / 2) * ((1 : Nat) : ℚ) ^ 3 = 1 by norm_num, roundAway_one]
  rw [e] at h1
  revert h1
  decide

theorem abs_sub_le_iff_bounds (a b e : ℚ) : |a - b| ≤ e ↔ b - e ≤ a ∧ a ≤ b + e := by
  rw [abs_le]
  constructor
  · rintro ⟨h1, h2⟩; constructor <;> linarith
  · rintro ⟨h1, h2⟩; constructor <;> linarith

theorem roundAway_eq_two (r : ℚ) (h1 : 3 / 2 ≤ r) (h2 : r < 5 / 2) : roundAway r = 2 := by
  unfold roundAway
  rw [if_pos (by linarith), Int.floor_eq_iff]
  constructor <;> push_cast <;> linarith

/-- The offset of segment 4 under tilt 0.5 and wind 1 is 2 as soon as
`math.Pow(4, 1.5)` is within 1 of 8. -/
theorem segmentOffset_half_one_four (rt : GoRuntime) (p : ℚ)
    (hp : rt.powCore (.fin 4) (.fin (3 / 2)) = .fin p) (h7 : 7 ≤ p) (h9 : p ≤ 9) :
    segmentOffset rt (.fin (1 / 2)) (.fin 1) 4 = .fin 2 := by
  unfold segmentOffset
  have h4 : F64.ofInt ((4 : Nat) : Int) = .fin 4 := by
    have := ofInt_natCast 4 (by norm_num)
    simpa using this
  have hpow : mathPow rt (.fin 4) (.fin (3 / 2)) = .fin p := by
    unfold mathPow
    rw [if_neg (by norm_num), if_neg (by norm_num), if_neg (by simp),
      if_neg (by norm_num), hp]
  have hhalf : F64.round64 (1 / 2 : ℚ) = .fin (1 / 2) := by
    have := round64_half 1 (by norm_num)
    simpa using this
  have hquarter : F64.round64 (1 / 4 : ℚ) = .fin (1 / 4) := by
    have e : ((1 : Int) : ℚ) * (2 : ℚ) ^ (-2 : Int) = 1 / 4 := by norm_num
    have := round64_dyadic 1 (-2) (by norm_num) (by norm_num) (by
      rw [e, abs_of_pos (by norm_num)]
      norm_num)
    rwa [e] at this
  have e1 : F64.mul (.fin (1 / 2)) (.fin 1) = .fin (1 / 2) := by
    simp only [F64.mul]
    rw [show (1 / 2 : ℚ) * 1 = 1 / 2 by norm_num, hhalf]
  have e2 : F64.mul (.fin (1 / 2)) (.fin (1 / 2)) = .fin (1 / 4) := by
    simp only [F64.mul]
    rw [show (1 / 2 : ℚ) * (1 / 2) = 1 / 4 by norm_num, hquarter]
  rw [h4, hpow, e1, e2]
  obtain ⟨r, hr, herr⟩ := round64_near (1 / 4 * p) (by
    rw [abs_of_nonneg (by linarith)]; linarith)
  simp only [F64.mul]
  rw [hr]
  rw [abs_sub_le_iff_bounds] at herr
  have hε : (1 : ℚ) / 2 ^ 44 ≤ 1 / 8 := by norm_num
  simp only [F64.mathRound]
  rw [roundAway_eq_two r (by linarith) (by linarith)]
  norm_num

/-- Claim C4, amended. For every strand with two position entries per colour, every tilt and
wind, `Update` returns and `positions[2*i]` is, for every segment `i`,
`X + int32(offset)` reduced to int32, where `offset` is
`math.Round(tilt * wind * 0.5 * math.Pow(float64(i), 1.5))` evaluated in
float64.  When that float product is the finite number `q`, and
`round(q)` (to nearest, halves away from zero) and `X + round(q)` are int32
values, `positions[2*i] = X + round(q)`.  In particular for tilt 0.5, wind 1,
`X = 10`, `Y = 20` and five segments, segment 4 is at `(12, 16)`, provided
`math.Pow(4, 1.5)` is within 1 of 8. -/
theorem horizontal_coordinate (rt : GoRuntime) (tilt wind : F64) (s : Strand) (hs : s.wf) :
    ∃ t, s.Update rt tilt wind = some t ∧
      (∀ i, i < s.colors.length →
        t.positions[2 * i]? =
          some (wrapInt32 (s.X + toInt32 rt (segmentOffset rt tilt wind i)))) ∧
      (∀ i q, i < s.colors.length →
        F64.mul (F64.mul (F64.mul tilt wind) (.fin (1 / 2)))
          (mathPow rt (F64.ofInt (i : Int)) (.fin (3 / 2))) = .fin q →
        isInt32 (roundAway q) → isInt32 (s.X + roundAway q) →
        t.positions[2 * i]? = some (s.X + roundAway q)) ∧
      (∀ p, tilt = .fin (1 / 2) → wind = .fin 1 → s.X = 10 → s.Y = 20 →
        s.colors.length = 5 → rt.powCore (.fin 4) (.fin (3 / 2)) = .fin p → 7 ≤ p → p ≤ 9 →
        t.positions[8]? = some 12 ∧ t.positions[9]? = some 16) := by
  refine ⟨_, Update_eq_updated rt tilt wind s hs, ?_, ?_, ?_⟩
  · intro i hi
    exact updated_x rt tilt wind s i hi
  · intro i q hi hq h1 h2
    rw [updated_x rt tilt wind s i hi]
    unfold Strand.xAt segmentOffset
    rw [hq]
    simp only [F64.mathRound]
    rw [toInt32_intCast rt _ h1, wrapInt32_of_isInt32 _ h2]
  · intro p ht hw hX hY hn hp h7 h9
    subst ht hw
    constructor
    · have := updated_x rt (.fin (1 / 2)) (.fin 1) s 4 (by omega)
      rw [show 2 * 4 = 8 by rfl] at this
      rw [this]
      unfold Strand.xAt
      rw [segmentOffset_half_one_four rt p hp h7 h9, hX,
        show (F64.fin 2) = F64.fin ((2 : Int) : ℚ) by norm_num,
        toInt32_intCast _ 2 (by decide)]
      decide
    · have := updated_y rt (.fin (1 / 2)) (.fin 1) s 4 (by omega)
      rw [show 2 * 4 + 1 = 9 by rfl] at this
      rw [this, yAt_eq, hY]
      decide

theorem horizontal_coordinate_witness :
    (freshStrand 10 20 5).wf ∧
    ∃ t, (freshStrand 10 20 5).Update sampleRuntime (.fin (1 / 2)) (.fin 1) = some t ∧
      t.positions[8]? = some 12 ∧ t.positions[9]? = some 16 := by
  obtain ⟨t, ht, -, -, hex⟩ :=
    horizontal_coordinate sampleRuntime (.fin (1 / 2)) (.fin 1) (freshStrand 10 20 5) (by decide)
  have hp : sampleRuntime.powCore (.fin 4) (.fin (3 / 2)) = .fin 8 := by
    have hs : Nat.sqrt 4 = 2 := Nat.sqrt_eq 2
    have hf : ⌊(4 : ℚ)⌋₊ = 4 := by simp
    have h8 : F64.round64 (8 : ℚ) = .fin 8 := by
      have := round64_natCast 8 (by norm_num)
      simpa using this
    simp only [sampleRuntime, F64.toRat, hf, hs, F64.mul]
    rw [show (4 : ℚ) * ((2 : Nat) : ℚ) = 8 by norm_num, h8]
  exact ⟨by decide, t, ht, hex 8 rfl rfl rfl rfl rfl hp (by norm_num) (by norm_num)⟩

/-! ## C10: the colour gradient -/

theorem truncRat_bounds (q : ℚ) (h : -1 < q) :
    0 ≤ truncRat q ∧ (truncRat q : ℚ) ≤ max q 0 ∧ q - 1 < (truncRat q : ℚ) := by
  unfold truncRat
  by_cases h0 : 0 ≤ q
  · rw [if_pos h0]
    refine ⟨Int.floor_nonneg.2 h0, ?_, ?_⟩
    · exact le_trans (Int.floor_le q) (le_max_left _ _)
    · have := Int.lt_floor_add_one q
      linarith
  · rw [if_neg h0]
    have hc : ⌈q⌉ = 0 := by
      rw [Int.ceil_eq_iff]
      constructor <;> push_cast <;> linarith
    rw [hc]
    refine ⟨le_refl _, ?_, ?_⟩
    · simp
    · push_cast; linarith

/-- A channel blended from 0 toward `e` by a finite amount `a` is the truncation of
a number within `2^-44` of `e * a`. -/
theorem lerpChannel_zero_val (rt : GoRuntime) (e : Fin 256) (a : ℚ)
    (hlo : -(1 / 2) ≤ (e.val : ℚ) * a) (hhi : (e.val : ℚ) * a ≤ 255 + 1 / 2) :
    ∃ r : ℚ, |r - (e.val : ℚ) * a| ≤ 1 / 2 ^ 44 ∧ 0 ≤ truncRat r ∧
      ((lerpChannel rt 0 e (.fin a)).val : Int) = truncRat r := by
  have hε : (1 : ℚ) / 2 ^ 44 ≤ 1 / 4 := by norm_num
  obtain ⟨r, hr, herr⟩ := round64_near ((e.val : ℚ) * a) (by
    rw [abs_le]; constructor <;> linarith)
  have herr' := (abs_sub_le_iff_bounds _ _ _).1 herr
  obtain ⟨ht0, ht1, -⟩ := truncRat_bounds r (by linarith)
  have ht256 : truncRat r < 256 := by
    have : (truncRat r : ℚ) < 256 := by
      refine lt_of_le_of_lt ht1 (max_lt (by linarith) (by norm_num))
    exact_mod_cast this
  refine ⟨r, herr, ht0, ?_⟩
  unfold lerpChannel
  have h0 : F64.ofInt ((((e - 0 : Fin 256)).val : Nat) : Int) = .fin (e.val : ℚ) := by
    rw [sub_zero]
    exact ofInt_natCast e.val (by have := e.isLt; omega)
  rw [h0]
  simp only [F64.mul]
  rw [hr]
  unfold toUint8
  simp only []
  rw [dif_pos ⟨ht0, ht256⟩, zero_add]
  simp only []
  omega

/-- The blend amount `wind + (1-wind)*WIND_POWER` for a wind in `[0, 1]` is finite and
within `3 * 2^-44` of `(1 + wind)/2`. -/
theorem amount_bounds (w : ℚ) (h0 : 0 ≤ w) (h1 : w ≤ 1) :
    ∃ r : ℚ, F64.add (.fin w) (F64.mul (F64.sub (.fin 1) (.fin w)) WIND_POWER) = .fin r ∧
      |r - (1 + w) / 2| ≤ 3 / 2 ^ 44 := by
  have hε : (1 : ℚ) / 2 ^ 44 ≤ 1 / 4 := by norm_num
  obtain ⟨r1, hr1, he1⟩ := round64_near (1 + -w) (by
    rw [abs_le]; constructor <;> linarith)
  have he1' := (abs_sub_le_iff_bounds _ _ _).1 he1
  obtain ⟨r2, hr2, he2⟩ := round64_near (r1 * (1 / 2)) (by
    rw [abs_le]; constructor <;> linarith)
  have he2' := (abs_sub_le_iff_bounds _ _ _).1 he2
  obtain ⟨r3, hr3, he3⟩ := round64_near (w + r2) (by
    rw [abs_le]; constructor <;> linarith)
  have he3' := (abs_sub_le_iff_bounds _ _ _).1 he3
  refine ⟨r3, ?_, ?_⟩
  · simp only [F64.sub, F64.neg, F64.add, WIND_POWER, hr1, F64.mul, hr2, hr3]
  · rw [abs_sub_le_iff_bounds]
    constructor <;> linarith

/-- The top colour for a wind in `[0, 1]` is `{0, T, 0, T}` with `127 ≤ T`. -/
theorem topStrandColor_spec (rt : GoRuntime) (w : ℚ) (h0 : 0 ≤ w) (h1 : w ≤ 1) :
    ∃ T : Fin 256, topStrandColor rt (.fin w) = ⟨0, T, 0, T⟩ ∧ 127 ≤ T.val := by
  have hε : (1 : ℚ) / 2 ^ 44 ≤ 1 / 4096 := by norm_num
  obtain ⟨a, ha, hea⟩ := amount_bounds w h0 h1
  have hea' := (abs_sub_le_iff_bounds _ _ _).1 hea
  have hv : ((255 : Fin 256).val : ℚ) = 255 := by
    have h255 : (255 : Fin 256).val = 255 := rfl
    rw [h255]
    norm_num
  obtain ⟨r, her, ht0, hval⟩ := lerpChannel_zero_val rt 255 a
    (by rw [hv]; linarith) (by rw [hv]; linarith)
  have her' := (abs_sub_le_iff_bounds _ _ _).1 her
  rw [hv] at her'
  refine ⟨lerpChannel rt 0 255 (.fin a), ?_, ?_⟩
  · unfold topStrandColor
    rw [ha]
    simp only [LerpColor, Color.zero, STRAND_COLOR, lerpChannel_zero_zero]
  · obtain ⟨-, -, hlow⟩ := truncRat_bounds r (by linarith)
    have h126 : (126 : ℚ) < (truncRat r : ℚ) := by linarith
    have : (126 : Int) < truncRat r := by exact_mod_cast h126
    omega

/-- The colour written to segment `i` of `n ≤ 9` segments when the top colour is
`{0, T, 0, T}`: red and blue are 0, green and alpha are the truncation of a
number within `2^-36` of `T * (i / n)`. -/
theorem segmentColor_spec (rt : GoRuntime) (T : Fin 256) (n i : Nat) (hn9 : n ≤ 9)
    (hi : i < n) :
    ∃ r : ℚ, |r - (T.val : ℚ) * ((i : ℚ) / n)| ≤ 1 / 2 ^ 36 ∧ 0 ≤ truncRat r ∧
      (segmentColor rt ⟨0, T, 0, T⟩ n i).R = 0 ∧ (segmentColor rt ⟨0, T, 0, T⟩ n i).B = 0 ∧
      (((segmentColor rt ⟨0, T, 0, T⟩ n i).G).val : Int) = truncRat r ∧
      (((segmentColor rt ⟨0, T, 0, T⟩ n i).A).val : Int) = truncRat r := by
  have hn : 0 < n := by omega
  have hnq : (0 : ℚ) < n := by exact_mod_cast hn
  have hiq : (i : ℚ) < n := by exact_mod_cast hi
  have hi0 : (0 : ℚ) ≤ i := by exact_mod_cast Nat.zero_le i
  have hT0 : (0 : ℚ) ≤ (T.val : ℚ) := by exact_mod_cast Nat.zero_le _
  have hT255 : (T.val : ℚ) ≤ 255 := by
    have := T.isLt
    exact_mod_cast (by omega : T.val ≤ 255)
  have hfrac0 : (0 : ℚ) ≤ (i : ℚ) / n := div_nonneg hi0 hnq.le
  have hfrac1 : (i : ℚ) / n ≤ 1 := by
    rw [div_le_one hnq]; exact hiq.le
  have hε : (1 : ℚ) / 2 ^ 44 ≤ 1 / 4096 := by norm_num
  have hε0 : (0 : ℚ) ≤ 1 / 2 ^ 44 := by norm_num
  obtain ⟨a, ha, hea⟩ := round64_near ((i : ℚ) / n) (by
    rw [abs_le]; constructor <;> linarith)
  have hea' := (abs_sub_le_iff_bounds _ _ _).1 hea
  have hdiv : F64.div (F64.ofInt (i : Int)) (F64.ofInt (n : Int)) = .fin a := by
    rw [ofInt_natCast i (by omega), ofInt_natCast n (by omega)]
    simp only [F64.div]
    rw [if_neg (by exact_mod_cast hn.ne'), ha]
  -- bounds on T * a
  have hx0 : 0 ≤ (T.val : ℚ) * ((i : ℚ) / n) := mul_nonneg hT0 hfrac0
  have hx1 : (T.val : ℚ) * ((i : ℚ) / n) ≤ 255 := by
    have := mul_le_mul hT255 hfrac1 hfrac0 (by norm_num : (0 : ℚ) ≤ 255)
    linarith
  have hTε : (T.val : ℚ) * (1 / 2 ^ 44) ≤ 255 * (1 / 2 ^ 44) :=
    mul_le_mul_of_nonneg_right hT255 hε0
  have hlo : (T.val : ℚ) * ((i : ℚ) / n - 1 / 2 ^ 44) ≤ (T.val : ℚ) * a :=
    mul_le_mul_of_nonneg_left hea'.1 hT0
  have hhi : (T.val : ℚ) * a ≤ (T.val : ℚ) * ((i : ℚ) / n + 1 / 2 ^ 44) :=
    mul_le_mul_of_nonneg_left hea'.2 hT0
  rw [mul_sub] at hlo
  rw [mul_add] at hhi
  obtain ⟨r, her, ht0, hval⟩ := lerpChannel_zero_val rt T a (by linarith) (by linarith)
  have her' := (abs_sub_le_iff_bounds _ _ _).1 her
  have h36 : (1 : ℚ) / 2 ^ 36 = 256 * (1 / 2 ^ 44) := by norm_num
  refine ⟨r, ?_, ht0, ?_, ?_, ?_, ?_⟩
  · rw [abs_sub_le_iff_bounds, h36]
    constructor <;> linarith
  · simp only [segmentColor, hdiv, LerpColor, Color.zero, lerpChannel_zero_zero]
  · simp only [segmentColor, hdiv, LerpColor, Color.zero, lerpChannel_zero_zero]
  · simp only [segmentColor, hdiv, LerpColor, Color.zero]
    exact hval
  · simp only [segmentColor, hdiv, LerpColor, Color.zero]
    exact hval

/-- Segment 0 gets the zero colour whatever the top colour. -/
theorem segmentColor_zero (rt : GoRuntime) (T : Fin 256) (n : Nat) (hn : 0 < n) (hn9 : n ≤ 9) :
    segmentColor rt ⟨0, T, 0, T⟩ n 0 = ⟨0, 0, 0, 0⟩ := by
  have hdiv : F64.div (F64.ofInt ((0 : Nat) : Int)) (F64.ofInt (n : Int)) = .fin 0 := by
    rw [ofInt_natCast 0 (by norm_num), ofInt_natCast n (by omega)]
    simp only [F64.div]
    rw [if_neg (by exact_mod_cast hn.ne')]
    simp [round64_zero]
  have hT : lerpChannel rt 0 T (.fin 0) = 0 := by
    unfold lerpChannel
    rw [sub_zero, ofInt_natCast T.val (by have := T.isLt; omega), mul_fin_zero_right]
    have := toUint8_natCast rt 0 (by norm_num)
    simp only [Nat.cast_zero] at this
    rw [this]
    rfl
  simp only [segmentColor, hdiv, LerpColor, Color.zero, lerpChannel_zero_zero, hT]

/-- Claim C10. For every wind in `[0, 1]`, every tilt and every strand with 4 to 9 segments
(and two position entries per colour), `Update` returns, segment 0 has colour
`{0, 0, 0, 0}`, and for all segments `i < j` green and alpha are strictly
smaller at `i` than at `j`, red and blue being 0. -/
theorem colour_gradient (rt : GoRuntime) (tilt : F64) (w : ℚ) (h0 : 0 ≤ w) (h1 : w ≤ 1)
    (s : Strand) (hs : s.wf) (hn4 : 4 ≤ s.colors.length) (hn9 : s.colors.length ≤ 9) :
    ∃ t, s.Update rt tilt (.fin w) = some t ∧
      t.colors[0]? = some ⟨0, 0, 0, 0⟩ ∧
      ∀ i j, i < j → j < s.colors.length →
        ∃ ci cj, t.colors[i]? = some ci ∧ t.colors[j]? = some cj ∧
          ci.G < cj.G ∧ ci.A < cj.A ∧ ci.R = 0 ∧ ci.B = 0 ∧ cj.R = 0 ∧ cj.B = 0 := by
  obtain ⟨T, hT, hT127⟩ := topStrandColor_spec rt w h0 h1
  refine ⟨_, Update_eq_updated rt tilt _ s hs, ?_, ?_⟩
  · rw [updated_color rt tilt _ s 0 (by omega), hT, segmentColor_zero rt T _ (by omega) hn9]
  · intro i j hij hj
    have hi : i < s.colors.length := by omega
    obtain ⟨ri, hri, -, hRi, hBi, hGi, hAi⟩ := segmentColor_spec rt T s.colors.length i hn9 hi
    obtain ⟨rj, hrj, -, hRj, hBj, hGj, hAj⟩ := segmentColor_spec rt T s.colors.length j hn9 hj
    refine ⟨_, _, by rw [updated_color rt tilt _ s i hi, hT],
      by rw [updated_color rt tilt _ s j hj, hT], ?_, ?_, hRi, hBi, hRj, hBj⟩
    all_goals
      have hri' := (abs_sub_le_iff_bounds _ _ _).1 hri
      have hrj' := (abs_sub_le_iff_bounds _ _ _).1 hrj
      have hε : (1 : ℚ) / 2 ^ 36 ≤ 1 / 4096 := by norm_num
      have hnq : (0 : ℚ) < (s.colors.length : ℚ) := by
        exact_mod_cast (by omega : 0 < s.colors.length)
      have hn9q : (s.colors.length : ℚ) ≤ 9 := by exact_mod_cast hn9
      have hTq : (127 : ℚ) ≤ (T.val : ℚ) := by exact_mod_cast hT127
      have hijq : (i : ℚ) + 1 ≤ j := by exact_mod_cast hij
      have hi0 : (0 : ℚ) ≤ i := by exact_mod_cast Nat.zero_le i
      -- the exact values are at least 127/9 apart
      have hgap : (T.val : ℚ) * ((i : ℚ) / s.colors.length) + 127 / 9
          ≤ (T.val : ℚ) * ((j : ℚ) / s.colors.length) := by
        have e : (T.val : ℚ) * ((j : ℚ) / s.colors.length)
            - (T.val : ℚ) * ((i : ℚ) / s.colors.length)
            = (T.val : ℚ) * ((j : ℚ) - i) / s.colors.length := by
          field_simp
          ring
        have h2 : (127 : ℚ) / 9 ≤ (T.val : ℚ) * ((j : ℚ) - i) / s.colors.length := by
          rw [div_le_div_iff₀ (by norm_num) hnq]
          nlinarith
        linarith
      have hxi0 : 0 ≤ (T.val : ℚ) * ((i : ℚ) / s.colors.length) :=
        mul_nonneg (by linarith) (div_nonneg hi0 hnq.le)
      obtain ⟨-, hti, -⟩ := truncRat_bounds ri (by linarith)
      obtain ⟨-, -, htj⟩ := truncRat_bounds rj (by linarith)
      have hmax : max ri 0 ≤ (T.val : ℚ) * ((i : ℚ) / s.colors.length) + 1 / 2 ^ 36 :=
        max_le (by linarith) (by linarith)
      have hlt : (truncRat ri : ℚ) < (truncRat rj : ℚ) := by linarith
      have hlt' : truncRat ri < truncRat rj := by exact_mod_cast hlt
      rw [Fin.lt_def]
      omega

theorem colour_gradient_witness :
    (0 : ℚ) ≤ 1 ∧ (1 : ℚ) ≤ 1 ∧ (freshStrand 10 20 5).wf ∧
    4 ≤ (freshStrand 10 20 5).colors.length ∧ (freshStrand 10 20 5).colors.length ≤ 9 ∧
    ∃ t, (freshStrand 10 20 5).Update sampleRuntime (.fin (1 / 2)) (.fin 1) = some t ∧
      t.colors[0]? = some ⟨0, 0, 0, 0⟩ ∧
      ∀ i j, i < j → j < (freshStrand 10 20 5).colors.length →
        ∃ ci cj, t.colors[i]? = some ci ∧ t.colors[j]? = some cj ∧
          ci.G < cj.G ∧ ci.A < cj.A ∧ ci.R = 0 ∧ ci.B = 0 ∧ cj.R = 0 ∧ cj.B = 0 :=
  ⟨by norm_num, by norm_num, by decide, by decide, by decide,
    colour_gradient sampleRuntime (.fin (1 / 2)) 1 (by norm_num) (by norm_num)
      (freshStrand 10 20 5) (by decide) (by decide) (by decide)⟩

end GoGrass
